import Mathlib

/-!
Verification of the gitmeup command pipeline (`gitmeup/cli.py`).

The Python source is shallowly embedded: each Python function used by the
claims is translated into a computable Lean definition over `String` /
`List String`.  Python string primitives (`str.strip`, `str.splitlines`,
`str.casefold`, `str.startswith`, `shlex.split`, ...) are modelled
explicitly below; stateful loops become structural recursions, and
`raise ValueError` becomes `Except GitmeupErr`.
-/

namespace Gitmeup

/-! ## Python string primitives -/

/-- The whitespace characters stripped by Python's `str.strip()`
(ASCII subset; the pipeline only manipulates ASCII command text). -/
def pySpace (c : Char) : Bool :=
  c = ' ' || c = '\t' || c = '\n' || c = '\r' || c = '\x0b' || c = '\x0c'

/-- `str.strip()` on the character list. -/
def pyStripL (cs : List Char) : List Char :=
  ((cs.dropWhile pySpace).reverse.dropWhile pySpace).reverse

/-- Model of Python `str.strip()`. -/
def pyStrip (s : String) : String := ⟨pyStripL s.data⟩

/-- Model of Python `str.lstrip()`. -/
def pyLStrip (s : String) : String := ⟨s.data.dropWhile pySpace⟩

/-- Model of Python `str.casefold()` / `str.lower()` (they agree on the
ASCII text this tool manipulates): lower-case every character. -/
def caseFold (s : String) : String := ⟨s.data.map Char.toLower⟩

/-- Model of Python `s.startswith(pre)`. -/
def startsWithStr (pre s : String) : Bool := pre.data.isPrefixOf s.data

/-- Model of Python `s.endswith(suf)`. -/
def endsWithStr (suf s : String) : Bool := suf.data.reverse.isPrefixOf s.data.reverse

/-- Model of Python `sep.join(xs)`. -/
def joinWith (sep : String) : List String → String
  | [] => ""
  | [x] => x
  | x :: xs => x ++ sep ++ joinWith sep xs

/-- Is `c` a line break for `str.splitlines()`?  (Python's full set:
LF, CR, VT, FF, FS, GS, RS, NEL, LS, PS.) -/
def isLineBreak (c : Char) : Bool :=
  c = '\n' || c = '\r' || c = '\x0b' || c = '\x0c' ||
  c = '\x1c' || c = '\x1d' || c = '\x1e' || c = '\u0085' ||
  c = '\u2028' || c = '\u2029'

/-- The line scan of `str.splitlines()`: `cur` is the current line (in
order).  A `\r\n` pair counts as a single break; a trailing break
produces no extra empty line. -/
def splitLinesL : List Char → List Char → List (List Char)
  | [], cur => if cur = [] then [] else [cur]
  | '\r' :: '\n' :: rest, cur => cur :: splitLinesL rest []
  | c :: rest, cur =>
    if isLineBreak c then cur :: splitLinesL rest []
    else splitLinesL rest (cur ++ [c])

/-- Model of Python `str.splitlines()`.  (`"".splitlines() = []`, and a
trailing newline adds no empty final line, matching Python.) -/
def splitLines (s : String) : List String :=
  (splitLinesL s.data []).map (fun cs => (⟨cs⟩ : String))

/-! ## Block Extractor (`extract_bash_block`) -/

/-- The accepted language tags of a fenced block:
`lang == "" or lang.lower() in {"bash", "sh", "shell"}`. -/
def acceptedLang (lang : String) : Bool :=
  lang = "" || caseFold lang ∈ (["bash", "sh", "shell"] : List String)

/-- The scanning loop of `extract_bash_block`: `inBlock` / `langOk` are
the Python flags, `acc` the collected lines.  A second fence line while
inside a block executes Python's `break`, ending the scan. -/
def extractLoop : List String → Bool → Bool → List String → List String
  | [], _, _, acc => acc
  | line :: rest, inBlock, langOk, acc =>
    if startsWithStr "```" line then
      if !inBlock then
        let fence := pyStrip line
        let lang := pyStrip ⟨fence.data.drop 3⟩
        extractLoop rest true (acceptedLang lang) acc
      else acc
    else if inBlock && langOk then
      extractLoop rest inBlock langOk (acc ++ [line])
    else
      extractLoop rest inBlock langOk acc

/-- `extract_bash_block(text)`: collected lines joined by `"\n"` and
stripped.  An empty result is the `NoCommandBlock` signal (the caller
aborts on an empty extraction). -/
def extract_bash_block (text : String) : String :=
  pyStrip (joinWith "\n" (extractLoop (splitLines text) false false []))

/-! ## POSIX tokenizer (`shlex.split`)

CPython's `shlex` in posix mode with `whitespace_split=True` and no
comment characters, as used by `shlex.split`.  The scanner state is:
outside a token (`space`), inside an unquoted token (`word`), inside
single/double quotes, or after a backslash (`esc`, remembering whether
the backslash occurred inside double quotes). -/

/-- The two contexts from which `shlex`'s escape state can be entered. -/
inductive EscCtx : Type
  | word
  | doubleQ
  deriving DecidableEq

/-- The `shlex` scanner state. -/
inductive SState : Type
  | space
  | word
  | singleQ
  | doubleQ
  | esc (ctx : EscCtx)
  deriving DecidableEq

/-- The two `ValueError`s `shlex.read_token` can raise. -/
inductive ShlexErr : Type
  | noClosingQuotation
  | noEscapedCharacter
  deriving DecidableEq

/-- `shlex.whitespace` (the token separators): space, tab, CR, LF. -/
def shWS (c : Char) : Bool := c = ' ' || c = '\t' || c = '\r' || c = '\n'

/-- The `shlex` scanning loop: `tok` is the token under construction,
`quoted` the per-token "was quoted" flag (so `""` yields an empty
token), `acc` the emitted tokens.  EOF inside quotes raises
`No closing quotation`; EOF right after a backslash raises
`No escaped character`. -/
def shlexRun : List Char → SState → List Char → Bool → List (List Char) →
    Except ShlexErr (List (List Char))
  | [], st, tok, quoted, acc =>
    match st with
    | .singleQ | .doubleQ => .error .noClosingQuotation
    | .esc _ => .error .noEscapedCharacter
    | .space | .word =>
      if tok ≠ [] || quoted then .ok (acc ++ [tok]) else .ok acc
  | c :: rest, st, tok, quoted, acc =>
    match st with
    | .space =>
      if shWS c then shlexRun rest .space tok quoted acc
      else if c = '\\' then shlexRun rest (.esc .word) tok quoted acc
      else if c = '\'' then shlexRun rest .singleQ tok true acc
      else if c = '"' then shlexRun rest .doubleQ tok true acc
      else shlexRun rest .word (tok ++ [c]) quoted acc
    | .word =>
      if shWS c then
        if tok ≠ [] || quoted then shlexRun rest .space [] false (acc ++ [tok])
        else shlexRun rest .space [] false acc
      else if c = '\\' then shlexRun rest (.esc .word) tok quoted acc
      else if c = '\'' then shlexRun rest .singleQ tok true acc
      else if c = '"' then shlexRun rest .doubleQ tok true acc
      else shlexRun rest .word (tok ++ [c]) quoted acc
    | .singleQ =>
      if c = '\'' then shlexRun rest .word tok true acc
      else shlexRun rest .singleQ (tok ++ [c]) true acc
    | .doubleQ =>
      if c = '"' then shlexRun rest .word tok true acc
      else if c = '\\' then shlexRun rest (.esc .doubleQ) tok true acc
      else shlexRun rest .doubleQ (tok ++ [c]) true acc
    | .esc ctx =>
      match ctx with
      | .word => shlexRun rest .word (tok ++ [c]) quoted acc
      | .doubleQ =>
        if c = '"' || c = '\\' then shlexRun rest .doubleQ (tok ++ [c]) true acc
        else shlexRun rest .doubleQ (tok ++ ['\\', c]) true acc

/-- Model of `shlex.split(s)`. -/
def shlexSplit (s : String) : Except ShlexErr (List String) :=
  (shlexRun s.data .space [] false []).map (List.map fun cs => (⟨cs⟩ : String))

/-! ## Errors of the validation pipeline -/

deriving instance DecidableEq for Except

/-- The `ValueError`s raised by the command pipeline, as a structured
taxonomy (each constructor carries the context the Python message
interpolates). -/
inductive GitmeupErr : Type
  | invalidShellSyntax (startLine : Nat) (e : ShlexErr)
  | unterminatedQuote (startLine : Nat) (snippet : String)
  | emptyCommandPlan
  | ambiguousPath (path : String) (candidates : List String)
  | missingCommitMessage
  | messageFlagWithoutValue
  | emptyCommitHeader (cmdIdx : Nat)
  | invalidCommitHeader (cmdIdx : Nat) (header : String)
  | genericScope (cmdIdx : Nat) (scope : String)
  | scopeSpansMultipleAreas (cmdIdx : Nat) (areas : List String)
  deriving DecidableEq

/-! ## Command Lexer (`parse_commands`) -/

/-- The loop state of `parse_commands`: emitted commands, the buffered
lines of a command whose quote is still open, and the 1-based line at
which the buffered command started. -/
structure LexState : Type where
  commands : List (List String)
  buffered : List String
  startLine : Nat
  deriving DecidableEq

/-- One iteration of the `parse_commands` loop on physical line `raw`
(1-based number `ln`).  Outside buffering the line is stripped, blank
and `#` lines are skipped and a leading `"$ "` prompt is removed;
while buffering the raw line is kept.  The joined candidate is
tokenized: `No closing quotation` keeps buffering, any other failure is
fatal `InvalidShellSyntax`, success emits the vector (empty results are
dropped). -/
def parseLine (st : LexState) (ln : Nat) (raw : String) :
    Except GitmeupErr LexState :=
  let proceed : List String → Nat → Except GitmeupErr LexState :=
    fun buffered startLine =>
      match shlexSplit (joinWith "\n" buffered) with
      | .error .noClosingQuotation =>
        .ok { st with buffered := buffered, startLine := startLine }
      | .error e => .error (.invalidShellSyntax startLine e)
      | .ok parsed =>
        .ok { commands := st.commands ++ (if parsed ≠ [] then [parsed] else []),
              buffered := [], startLine := 0 }
  if st.buffered = [] then
    let line := pyStrip raw
    if line = "" || startsWithStr "#" line then .ok st
    else
      let line := if startsWithStr "$ " line then pyLStrip ⟨line.data.drop 2⟩ else line
      proceed [line] ln
  else
    proceed (st.buffered ++ [raw]) st.startLine

/-- The end-of-input snippet of an unterminated command:
`" ".join(part.strip() for part in buffered if part.strip())`. -/
def bufferedSnippet (buffered : List String) : String :=
  joinWith " " ((buffered.map pyStrip).filter (fun p => p ≠ ""))

/-- Fold `parseLine` over the numbered physical lines. -/
def parseLinesLoop : LexState → Nat → List String → Except GitmeupErr LexState
  | st, _, [] => .ok st
  | st, ln, raw :: rest => do
    let st' ← parseLine st ln raw
    parseLinesLoop st' (ln + 1) rest

/-- `parse_commands(block)`: lex the block into argument vectors.  A
still-buffered command at end of input is `UnterminatedQuote` (with its
starting line and snippet); zero resulting vectors is
`EmptyCommandPlan`. -/
def parse_commands (block : String) : Except GitmeupErr (List (List String)) := do
  let st ← parseLinesLoop ⟨[], [], 0⟩ 1 (splitLines block)
  if st.buffered ≠ [] then
    .error (.unterminatedQuote st.startLine (bufferedSnippet st.buffered))
  else if st.commands = [] then
    .error .emptyCommandPlan
  else
    .ok st.commands

/-! ## Path Index (`_build_casefold_path_index`) and Path Normalizer

The index is built from the repository's path set (tracked files plus
status paths); here that set is the parameter `paths`.  The Python dict
maps a case-folded key to the sorted list of distinct canonical paths
sharing that fold; `pathIndexLookup` computes one entry. -/

/-- Python `str` ordering (`list.sort`): lexicographic by code point. -/
def strLt (a b : String) : Bool := go a.data b.data where
  go : List Char → List Char → Bool
    | [], [] => false
    | [], _ :: _ => true
    | _ :: _, [] => false
    | x :: xs, y :: ys => if x < y then true else if y < x then false else go xs ys

/-- Insert into a sorted list (ascending by `strLt`). -/
def insertSorted (x : String) : List String → List String
  | [] => [x]
  | y :: ys => if strLt x y then x :: y :: ys else y :: insertSorted x ys

/-- Model of Python `sorted` on a list of strings. -/
def sortStrings (l : List String) : List String := l.foldr insertSorted []

/-- Drop duplicates (model of building a Python `set`). -/
def dedupFrom : List String → List String → List String
  | _, [] => []
  | seen, x :: xs =>
    if x ∈ seen then dedupFrom seen xs else x :: dedupFrom (x :: seen) xs

/-- The distinct elements of `l`, in first-occurrence order. -/
def dedupStr (l : List String) : List String := dedupFrom [] l

/-- The index entry for case-fold `key`: the sorted distinct canonical
paths whose fold is `key` (`index.get(key)`, `[]` when absent). -/
def pathIndexLookup (paths : List String) (key : String) : List String :=
  sortStrings ((dedupStr paths).filter (fun p => caseFold p = key))

/-- `_resolve_path_casing(path, path_index)`: no candidate or an exact
match leaves the path unchanged; a unique candidate rewrites; several
candidates with no exact match is fatal `AmbiguousPath` naming all
candidates. -/
def resolve_path_casing (path : String) (paths : List String) :
    Except GitmeupErr String :=
  let candidates := pathIndexLookup paths (caseFold path)
  if candidates = [] then .ok path
  else if path ∈ candidates then .ok path
  else
    match candidates with
    | [c] => .ok c
    | _ => .error (.ambiguousPath path candidates)

/-- Does the string start with `'-'` (Python `arg.startswith("-")`)? -/
def dashFirst (s : String) : Bool :=
  match s.data with
  | [] => false
  | c :: _ => c = '-'

/-- First index of `x` in `l` (Python `list.index`, defined where `x ∈ l`). -/
def firstIdx (x : String) : List String → Nat
  | [] => 0
  | y :: ys => if y = x then 0 else firstIdx x ys + 1

/-- `_path_indices_for_git_path_command(cmd)`: the positions of the
path arguments of a `git add/rm/mv` command — everything after a `--`
separator, or (fallback) every non-empty non-option token after the
subcommand. -/
def path_indices_for_git_path_command (cmd : List String) : List Nat :=
  if cmd.length < 3 || cmd.getD 0 "" ≠ "git" ||
      cmd.getD 1 "" ∉ (["add", "rm", "mv"] : List String) then []
  else if "--" ∈ cmd then
    let sep := firstIdx "--" cmd
    List.range' (sep + 1) (cmd.length - (sep + 1))
  else
    (List.range' 2 (cmd.length - 2)).filter
      (fun j => cmd.getD j "" ≠ "" && !dashFirst (cmd.getD j ""))

/-- The path arguments themselves of an `add`/`rm`/`mv` command. -/
def pathArgsOf (cmd : List String) : List String :=
  (path_indices_for_git_path_command cmd).map (fun j => cmd.getD j "")

/-- One step of the per-command normalization loop: read the argument
at position `j` of the evolving command, resolve it, and rewrite it in
place recording `(original, resolved)` when it changed. -/
def normStep (paths : List String)
    (acc : List String × List (String × String)) (j : Nat) :
    Except GitmeupErr (List String × List (String × String)) := do
  let original := acc.1.getD j ""
  let resolved ← resolve_path_casing original paths
  if resolved ≠ original then
    pure (acc.1.set j resolved, acc.2 ++ [(original, resolved)])
  else
    pure acc

/-- The per-command body of `normalize_command_paths`: resolve each
path argument in position order, rewriting in place and recording
`(original, resolved)` for every changed argument. -/
def normalizeOne (paths : List String) (cmd : List String) :
    Except GitmeupErr (List String × List (String × String)) :=
  (path_indices_for_git_path_command cmd).foldlM (normStep paths) (cmd, [])

/-- A recorded `Correction`: 1-based command position, original path,
canonical path. -/
abbrev Correction : Type := Nat × String × String

/-- The command loop of `normalize_command_paths`, numbering commands
from `i`. -/
def normalizeLoop (paths : List String) : Nat → List (List String) →
    Except GitmeupErr (List (List String) × List Correction)
  | _, [] => .ok ([], [])
  | i, cmd :: rest => do
    let (cmd', cs) ← normalizeOne paths cmd
    let (rest', corr) ← normalizeLoop paths (i + 1) rest
    .ok (cmd' :: rest', cs.map (fun oc => (i, oc.1, oc.2)) ++ corr)

/-- `normalize_command_paths(commands)`: when no command has path
arguments the plan is returned untouched (the index is not even
consulted); otherwise every path argument of every command is resolved
against the Path Index built from `paths`. -/
def normalize_command_paths (paths : List String) (commands : List (List String)) :
    Except GitmeupErr (List (List String) × List Correction) :=
  if commands.all (fun cmd => path_indices_for_git_path_command cmd = []) then
    .ok (commands, [])
  else
    normalizeLoop paths 1 commands

/-- The corrections `normalize_command_paths` records, characterized
per argument: scanning commands in plan order (1-based) and path
positions in order, exactly one `(position, original, canonical)`
triple for every argument whose resolution changes it. -/
def expectedCorrections (paths : List String) : Nat → List (List String) →
    List Correction
  | _, [] => []
  | i, cmd :: rest =>
    (path_indices_for_git_path_command cmd).filterMap (fun j =>
      match resolve_path_casing (cmd.getD j "") paths with
      | .ok q => if q ≠ cmd.getD j "" then some (i, cmd.getD j "", q) else none
      | .error _ => none) ++ expectedCorrections paths (i + 1) rest

/-! ## Commit message extraction (`_extract_commit_message_headers`) -/

/-- The argument scan of `_extract_commit_message_headers`: a
standalone `-m` / `--message` token takes the following token as a
message (fatal when none follows); every other token is skipped. -/
def collectMessages : List String → Except GitmeupErr (List String)
  | [] => .ok []
  | arg :: rest =>
    if arg ∈ (["-m", "--message"] : List String) then
      match rest with
      | [] => .error .messageFlagWithoutValue
      | v :: rest' => do
        let ms ← collectMessages rest'
        .ok (v :: ms)
    else collectMessages rest

/-- The first line of a message (`message.splitlines()[0] if message
else ""`). -/
def firstLineOf (message : String) : String := (splitLines message).getD 0 ""

/-- `_extract_commit_message_headers(cmd)`: `[]` for non-commit
commands; otherwise the stripped first lines of the `-m`/`--message`
values, fatal `MissingCommitMessage` when there are none. -/
def extract_commit_message_headers (cmd : List String) :
    Except GitmeupErr (List String) :=
  if cmd.length < 2 || cmd.getD 0 "" ≠ "git" || cmd.getD 1 "" ≠ "commit" then
    .ok []
  else do
    let msgs ← collectMessages (cmd.drop 2)
    if msgs = [] then .error .missingCommitMessage
    else .ok (msgs.map (fun m => pyStrip (firstLineOf m)))

/-! ## Conventional-commit header grammar (`CONVENTIONAL_HEADER_RE`)

The regex
`^(type-alternation)(\((?P<scope>[^)]+)\))?(?P<breaking>!)?: (?P<description>.+)`
checked with `re.match`.  Since no conventional type is a prefix of
another, alternation plus backtracking is equivalent to the
deterministic parser below; `.` does not match a newline and `re.match`
needs no end anchor, so the description is the (non-empty) run of
characters up to the first newline. -/

/-- The closed set of conventional commit types (`CONVENTIONAL_TYPES`). -/
def conventionalTypes : List String :=
  ["feat", "fix", "chore", "docs", "style", "refactor", "perf", "test", "ci", "revert"]

/-- The optional scope group `(\((?P<scope>[^)]+)\))?`: on a `(`, the
scope is the non-empty run of non-`)` characters up to the closing `)`
(no match otherwise); with no `(` the group is skipped. -/
def parseScope (cs : List Char) : Option (Option String × List Char) :=
  match cs with
  | c :: cs' =>
    if c = '(' then
      let sc := cs'.takeWhile (fun ch => ch ≠ ')')
      match cs'.dropWhile (fun ch => ch ≠ ')') with
      | _ :: cs'' => if sc = [] then none else some (some ⟨sc⟩, cs'')
      | [] => none
    else some (none, cs)
  | [] => some (none, cs)

/-- The optional breaking marker `(?P<breaking>!)?`. -/
def parseBang (cs : List Char) : Bool × List Char :=
  match cs with
  | c :: r => if c = '!' then (true, r) else (false, cs)
  | [] => (false, cs)

/-- The literal `": "` followed by `(?P<description>.+)`: one or more
characters up to the first newline (`.` does not match `\n`, and
`re.match` needs no end anchor). -/
def parseColonDesc (cs : List Char) : Option String :=
  match cs with
  | c1 :: c2 :: d =>
    if c1 = ':' && c2 = ' ' then
      let desc := d.takeWhile (fun ch => ch ≠ '\n')
      if desc = [] then none else some ⟨desc⟩
    else none
  | _ => none

/-- Parse `(\((?P<scope>[^)]+)\))?(?P<breaking>!)?: (?P<description>.+)`
after the type: returns `(scope?, breaking, description)`. -/
def matchAfterType (cs : List Char) : Option (Option String × Bool × String) :=
  match parseScope cs with
  | none => none
  | some (sc, cs₁) =>
    let bs := parseBang cs₁
    match parseColonDesc bs.2 with
    | none => none
    | some desc => some (sc, bs.1, desc)

/-- `CONVENTIONAL_HEADER_RE.match(header)`: the parsed
`(type, scope?, breaking, description)` or `none`. -/
def match_conventional_header (header : String) :
    Option (String × Option String × Bool × String) :=
  match conventionalTypes.find? (fun t => t.data.isPrefixOf header.data) with
  | none => none
  | some t =>
    match matchAfterType (header.data.drop t.length) with
    | none => none
    | some (sc, b, d) => some (t, sc, b, d)

/-- The spec-side grammar of a commit header, over its character
list. -/
def ConventionalGrammar (cs : List Char) : Prop :=
  ∃ (t : String) (scopePart bangPart desc : List Char),
    t ∈ conventionalTypes ∧
    cs = t.data ++ (scopePart ++ (bangPart ++ (':' :: ' ' :: desc))) ∧
    (scopePart = [] ∨ ∃ sc : List Char, sc ≠ [] ∧ (∀ c ∈ sc, c ≠ ')') ∧
      scopePart = '(' :: (sc ++ [')'])) ∧
    (bangPart = [] ∨ bangPart = ['!']) ∧
    desc ≠ []

/-! ## Generic scopes (`_project_generic_scopes`) -/

/-- Model of `re.match(r'name\s*=\s*["\']([^"\']+)["\']', line)`:
the declared name on a `name = "..."` manifest line. -/
def nameLineValue (line : String) : Option String :=
  if "name".data.isPrefixOf line.data then
    let cs₁ := (line.data.drop 4).dropWhile pySpace
    match cs₁ with
    | c :: cs₂ =>
      if c = '=' then
        let cs₃ := cs₂.dropWhile pySpace
        match cs₃ with
        | q :: cs₄ =>
          if q = '"' || q = '\'' then
            let inner := cs₄.takeWhile (fun ch => ch ≠ '"' && ch ≠ '\'')
            match cs₄.dropWhile (fun ch => ch ≠ '"' && ch ≠ '\'') with
            | q' :: _ =>
              if (q' = '"' || q' = '\'') && inner ≠ [] then some ⟨inner⟩
              else none
            | [] => none
          else none
        | [] => none
      else none
    | [] => none
  else none

/-- The line scan of `_project_generic_scopes` over the manifest text:
inside the `[project]` section, the first `name`-led line is tried
against the name regex and the scan stops there (match or not). -/
def manifestName : List String → Bool → Option String
  | [], _ => none
  | raw :: rest, inProj =>
    let line := pyStrip raw
    if startsWithStr "[" line && endsWithStr "]" line then
      manifestName rest (line = "[project]")
    else if !inProj || !startsWithStr "name" line then
      manifestName rest inProj
    else
      nameLineValue line

/-- `_project_generic_scopes()`: the case-folded working-directory
name, the literal `"gitmeup"`, and — when the manifest exists and is
readable (`manifest = some content`) — the stripped, case-folded
declared project name.  An absent or unreadable manifest (`none`)
contributes nothing and is never fatal. -/
def project_generic_scopes (cwdName : String) (manifest : Option String) :
    List String :=
  let base := [caseFold cwdName, "gitmeup"]
  match manifest with
  | none => base
  | some content =>
    match manifestName (splitLines content) false with
    | some nm => base ++ [caseFold (pyStrip nm)]
    | none => base

/-! ## Batches and the Commit Policy Validator -/

/-- `_is_commit_command(cmd)`. -/
def is_commit_command (cmd : List String) : Bool :=
  cmd.length ≥ 2 && cmd.getD 0 "" = "git" && cmd.getD 1 "" = "commit"

/-- The generator `_iter_commit_batches`, with explicit accumulator and
1-based numbering: path arguments accumulate across `add`/`rm`/`mv`
commands; each commit command yields `(position, command, batch)` and
resets the accumulator. -/
def commitBatchesAux : Nat → List String → List (List String) →
    List (Nat × List String × List String)
  | _, _, [] => []
  | i, acc, cmd :: rest =>
    let acc' := acc ++ pathArgsOf cmd
    if is_commit_command cmd then
      (i, cmd, acc') :: commitBatchesAux (i + 1) [] rest
    else
      commitBatchesAux (i + 1) acc' rest

/-- `_iter_commit_batches(commands)` as a list. -/
def iter_commit_batches (commands : List (List String)) :
    List (Nat × List String × List String) :=
  commitBatchesAux 1 [] commands

/-- `_batch_top_level_areas(paths)`: the sorted set of case-folded
first path components, ignoring a leading `./` and blank or `"."`
paths. -/
def batch_top_level_areas (paths : List String) : List String :=
  sortStrings (dedupStr (paths.filterMap (fun path =>
    let normalized := if startsWithStr "./" path then (⟨path.data.drop 2⟩ : String) else path
    if normalized = "" || normalized = "." then none
    else some (caseFold ⟨normalized.data.takeWhile (fun c => c ≠ '/')⟩))))

/-- The per-commit body of the `validate_commit_messages` loop:
extract the headers (commits without any header are skipped), reject an
empty header, a header not matching the grammar, a generic scope
(stripped and case-folded, against `generic`), and a scoped commit
whose batch spans more than one top-level area. -/
def check_commit (generic : List String) (i : Nat) (cmd : List String)
    (batch : List String) : Except GitmeupErr Unit := do
  let headers ← extract_commit_message_headers cmd
  match headers with
  | [] => .ok ()
  | header :: _ =>
    if header = "" then .error (.emptyCommitHeader i)
    else
      match match_conventional_header header with
      | none => .error (.invalidCommitHeader i header)
      | some (_, scope?, _, _) =>
        match scope? with
        | none => .ok ()
        | some scope =>
          if scope = "" then .ok ()
          else if caseFold (pyStrip scope) ∈ generic then
            .error (.genericScope i scope)
          else
            let areas := batch_top_level_areas batch
            if areas.length > 1 then
              .error (.scopeSpansMultipleAreas i areas)
            else .ok ()

/-- The batch loop of `validate_commit_messages`: check each commit in
plan order, stopping at the first failure. -/
def validateBatches (generic : List String) :
    List (Nat × List String × List String) → Except GitmeupErr Unit
  | [] => .ok ()
  | (i, cmd, batch) :: rest => do
    check_commit generic i cmd batch
    validateBatches generic rest

/-- `validate_commit_messages(commands)`; the generic-scope set is
computed once from the working-directory name and the optional
manifest. -/
def validate_commit_messages (cwdName : String) (manifest : Option String)
    (commands : List (List String)) : Except GitmeupErr Unit :=
  validateBatches (project_generic_scopes cwdName manifest)
    (iter_commit_batches commands)

/-! ## Command Runner (`run_commands`)

`run_commands` normalizes the whole plan, then validates the whole
plan, and only then (in apply mode) executes the normalized commands in
order.  A `ValueError` from either phase aborts with no execution, so
the runner is modelled as returning the normalized plan (the commands
that apply mode would execute, in order) together with the corrections,
or the aborting error. -/
def run_commands (paths : List String) (cwdName : String)
    (manifest : Option String) (commands : List (List String)) :
    Except GitmeupErr (List (List String) × List Correction) := do
  let (commands', corrections) ← normalize_command_paths paths commands
  validate_commit_messages cwdName manifest commands'
  .ok (commands', corrections)

/-! ## Supporting lemmas: Block Extractor -/

/-- Inside a block with a rejected tag, non-fence lines are skipped. -/
lemma extractLoop_skip (content : List String)
    (h : ∀ l ∈ content, startsWithStr "```" l = false) :
    ∀ rest acc, extractLoop (content ++ rest) true false acc =
      extractLoop rest true false acc := by
  induction content with
  | nil => intro rest acc; rfl
  | cons l ls ih =>
    intro rest acc
    have hl : startsWithStr "```" l = false := h l (by simp)
    simp only [List.cons_append, extractLoop, hl]
    simp only [Bool.false_eq_true, if_false, Bool.and_false]
    exact ih (fun x hx => h x (by simp [hx])) rest acc

/-- Inside a block with an accepted tag, non-fence lines are collected. -/
lemma extractLoop_collect (content : List String)
    (h : ∀ l ∈ content, startsWithStr "```" l = false) :
    ∀ rest acc, extractLoop (content ++ rest) true true acc =
      extractLoop rest true true (acc ++ content) := by
  induction content with
  | nil => intro rest acc; simp [extractLoop]
  | cons l ls ih =>
    intro rest acc
    have hl : startsWithStr "```" l = false := h l (by simp)
    simp only [List.cons_append, extractLoop, hl]
    simp only [Bool.false_eq_true, if_false, Bool.and_self, if_true,
      List.append_eq]
    rw [ih (fun x hx => h x (by simp [hx])) rest (acc ++ [l])]
    simp

/-- With no fence line at all, nothing is ever collected. -/
lemma extractLoop_nofence (lines : List String)
    (h : ∀ l ∈ lines, startsWithStr "```" l = false) :
    ∀ lo acc, extractLoop lines false lo acc = acc := by
  induction lines with
  | nil => intro lo acc; rfl
  | cons l ls ih =>
    intro lo acc
    have hl : startsWithStr "```" l = false := h l (by simp)
    simp only [extractLoop, hl, Bool.false_eq_true, if_false, Bool.false_and]
    exact ih (fun x hx => h x (by simp [hx])) lo acc

/-! ## C1 -/

/-- C1 is false on the code: when the first fenced block carries a
rejected tag (`python`), `extract_bash_block` stops at that block's
closing fence (`break`) and returns the empty extraction, even though a
later `bash` block follows; the same `bash` block standing first is
extracted fine. -/
theorem C1_counterexample :
    extract_bash_block "```python\nx\n```\n```bash\ngit add .\n```" = "" ∧
    extract_bash_block "```python\nx\n```\n```bash\ngit add .\n```" ≠ "git add ." ∧
    extract_bash_block "```bash\ngit add .\n```" = "git add ." := by
  refine ⟨rfl, ?_, rfl⟩
  decide

/-- C1, amended: if the first fence-delimited block carries a language
tag other than empty/bash/sh/shell, none of its content is collected
and scanning stops at that block's closing fence, so the extractor
returns the empty extraction (the `NoCommandBlock` signal) no matter
what follows; when the first block's tag is accepted, the extractor
returns exactly that block's inner lines joined by newline and
stripped; and input with no fence line yields the empty extraction. -/
theorem C1_thm :
    (∀ text tagline content closing rest,
      splitLines text = tagline :: (content ++ closing :: rest) →
      startsWithStr "```" tagline = true →
      (∀ l ∈ content, startsWithStr "```" l = false) →
      startsWithStr "```" closing = true →
      (acceptedLang (pyStrip ⟨(pyStrip tagline).data.drop 3⟩) = false →
        extract_bash_block text = "") ∧
      (acceptedLang (pyStrip ⟨(pyStrip tagline).data.drop 3⟩) = true →
        extract_bash_block text = pyStrip (joinWith "\n" content))) ∧
    (∀ text, (∀ l ∈ splitLines text, startsWithStr "```" l = false) →
      extract_bash_block text = "") := by
  constructor
  · intro text tagline content closing rest hsplit htag hcontent hclosing
    have hclose : ∀ lo acc,
        extractLoop (closing :: rest) true lo acc = acc := by
      intro lo acc
      simp [extractLoop, hclosing]
    constructor
    · intro hlang
      unfold extract_bash_block
      rw [hsplit]
      simp only [extractLoop, htag, if_true, Bool.not_true, hlang,
        Bool.false_eq_true, if_false]
      rw [extractLoop_skip content hcontent, hclose]
      rfl
    · intro hlang
      unfold extract_bash_block
      rw [hsplit]
      simp only [extractLoop, htag, if_true, Bool.not_true, hlang,
        Bool.false_eq_true, if_false]
      rw [extractLoop_collect content hcontent, hclose]
      simp
  · intro text h
    unfold extract_bash_block
    rw [extractLoop_nofence (splitLines text) h]
    rfl

/-- Witness for C1: the amended statement applied to a rejected-tag
text, an accepted-tag text, and a fence-free text. -/
theorem C1_witness :
    extract_bash_block "```python\nx\n```\n```bash\ngit add .\n```" = "" ∧
    extract_bash_block "```sh\ngit add .\n```" = "git add ." ∧
    extract_bash_block "no block here" = "" := by
  refine ⟨?_, ?_, ?_⟩
  · exact (C1_thm.1 "```python\nx\n```\n```bash\ngit add .\n```" "```python"
      ["x"] "```" ["```bash", "git add .", "```"] (by decide) (by decide)
      (by decide) (by decide)).1 (by decide)
  · have h := (C1_thm.1 "```sh\ngit add .\n```" "```sh"
      ["git add ."] "```" [] (by decide) (by decide) (by decide) (by decide)).2
      (by decide)
    simpa using h
  · exact C1_thm.2 "no block here" (by decide)

/-! ## C10 -/

/-- Tokens other than the standalone `-m`/`--message` are skipped by
the message scan. -/
lemma collectMessages_skip (args : List String)
    (h : ∀ a ∈ args, a ≠ "-m" ∧ a ≠ "--message") :
    collectMessages args = .ok [] := by
  induction args with
  | nil => rfl
  | cons a rest ih =>
    have ha := h a (by simp)
    rw [collectMessages.eq_def]
    dsimp only []
    rw [if_neg (by simp [ha.1, ha.2])]
    exact ih (fun x hx => h x (by simp [hx]))

/-- A trailing standalone flag with no following token is fatal. -/
lemma collectMessages_dangling (args : List String) (flag : String)
    (h : ∀ a ∈ args, a ≠ "-m" ∧ a ≠ "--message")
    (hflag : flag = "-m" ∨ flag = "--message") :
    collectMessages (args ++ [flag]) = .error .messageFlagWithoutValue := by
  induction args with
  | nil =>
    have hm : flag ∈ (["-m", "--message"] : List String) := by
      rcases hflag with h | h <;> simp [h]
    rw [collectMessages.eq_def]
    dsimp only [List.nil_append]
    rw [if_pos hm]
  | cons a rest ih =>
    have ha := h a (by simp)
    rw [List.cons_append, collectMessages.eq_def]
    dsimp only []
    rw [if_neg (by simp [ha.1, ha.2])]
    exact ih (fun x hx => h x (by simp [hx]))

/-- C10: the commit-message scan of `_extract_commit_message_headers`
recognises the message flag only as a standalone `-m` or `--message`
token followed by a separate value token.  A commit command whose
message appears only in attached form (no standalone flag token at all)
is rejected with the missing-commit-message error, and a commit whose
`-m`/`--message` is the final token is rejected with the distinct
flag-without-value error. -/
theorem C10_thm :
    (∀ args : List String, (∀ a ∈ args, a ≠ "-m" ∧ a ≠ "--message") →
      extract_commit_message_headers ("git" :: "commit" :: args) =
        .error .missingCommitMessage) ∧
    (∀ (args : List String) (flag : String),
      (∀ a ∈ args, a ≠ "-m" ∧ a ≠ "--message") →
      (flag = "-m" ∨ flag = "--message") →
      extract_commit_message_headers ("git" :: "commit" :: (args ++ [flag])) =
        .error .messageFlagWithoutValue) := by
  constructor
  · intro args h
    unfold extract_commit_message_headers
    rw [if_neg (by simp)]
    simp only [List.drop_succ_cons, List.drop_zero]
    rw [collectMessages_skip args h]
    rfl
  · intro args flag h hflag
    unfold extract_commit_message_headers
    rw [if_neg (by simp)]
    simp only [List.drop_succ_cons, List.drop_zero]
    rw [collectMessages_dangling args flag h hflag]
    rfl

/-- Witness for C10: `--message=feat: x` and `-mfeat: x` (attached
forms) are rejected as missing a message; a trailing bare `-m` is
rejected as a flag without value. -/
theorem C10_witness :
    extract_commit_message_headers ["git", "commit", "--message=feat: x"] =
      .error .missingCommitMessage ∧
    extract_commit_message_headers ["git", "commit", "-mfeat: x"] =
      .error .missingCommitMessage ∧
    extract_commit_message_headers ["git", "commit", "-m"] =
      .error .messageFlagWithoutValue := by
  refine ⟨?_, ?_, ?_⟩
  · exact C10_thm.1 ["--message=feat: x"] (by decide)
  · exact C10_thm.1 ["-mfeat: x"] (by decide)
  · exact C10_thm.2 [] "-m" (by decide) (Or.inl rfl)

/-! ## C5 -/

/-- C5: a path argument whose case-folded form has two or more distinct
canonical candidates and which equals none of them exactly is fatal
`AmbiguousPath`, naming all candidates and rewriting nothing; a path
argument that equals one candidate exactly is left unchanged even
though other candidates share its fold. -/
theorem C5_thm :
    (∀ (paths : List String) (p : String),
      2 ≤ (pathIndexLookup paths (caseFold p)).length →
      p ∉ pathIndexLookup paths (caseFold p) →
      resolve_path_casing p paths =
        .error (.ambiguousPath p (pathIndexLookup paths (caseFold p)))) ∧
    (∀ (paths : List String) (p : String),
      p ∈ pathIndexLookup paths (caseFold p) →
      resolve_path_casing p paths = .ok p) := by
  constructor
  · intro paths p hlen hmem
    unfold resolve_path_casing
    rcases hm : pathIndexLookup paths (caseFold p) with _ | ⟨a, _ | ⟨b, t⟩⟩
    · rw [hm] at hlen; simp at hlen
    · rw [hm] at hlen; simp at hlen
    · rw [hm] at hmem
      simp only [hm]
      rw [if_neg (by simp), if_neg hmem]
  · intro paths p hmem
    unfold resolve_path_casing
    rw [if_neg (by rintro h; rw [h] at hmem; simp at hmem), if_pos hmem]

/-- Witness for C5: two tracked paths differing only in case and a
proposed path matching neither exactly trigger `AmbiguousPath` naming
both; proposing one of them exactly leaves it unchanged. -/
theorem C5_witness :
    resolve_path_casing "components/POPUP.tsx"
        ["components/Popup.tsx", "components/popup.tsx"] =
      .error (.ambiguousPath "components/POPUP.tsx"
        ["components/Popup.tsx", "components/popup.tsx"]) ∧
    resolve_path_casing "components/Popup.tsx"
        ["components/Popup.tsx", "components/popup.tsx"] =
      .ok "components/Popup.tsx" := by
  constructor
  · have h := C5_thm.1 ["components/Popup.tsx", "components/popup.tsx"]
      "components/POPUP.tsx" (by decide) (by decide)
    simpa using h
  · exact C5_thm.2 ["components/Popup.tsx", "components/popup.tsx"]
      "components/Popup.tsx" (by decide)

/-! ## Supporting lemmas: batches and the commit check -/

/-- A commit command contributes no path arguments to a batch. -/
lemma pathArgsOf_commit {c : List String} (hc : is_commit_command c = true) :
    pathArgsOf c = [] := by
  simp only [is_commit_command, Bool.and_eq_true, decide_eq_true_eq,
    ge_iff_le] at hc
  unfold pathArgsOf path_indices_for_git_path_command
  rw [if_pos]
  · rfl
  · have h1 := hc.2
    rw [List.getD_eq_getElem?_getD] at h1
    simp [h1]

/-! ## C3 -/

/-- C3 is false on the code as stated: a scoped commit whose batch
spans two top-level areas is rejected, but when the scope is also
generic the failure is `GenericScope` — the generic-scope check runs
before the area check — not `ScopeSpansMultipleAreas`. -/
theorem C3_counterexample :
    validate_commit_messages "proj" none
        [["git", "add", "--", "README.md", "tests/test_cli.py"],
         ["git", "commit", "-m", "chore(gitmeup): sync docs and tests"]] =
      .error (.genericScope 2 "gitmeup") ∧
    iter_commit_batches
        [["git", "add", "--", "README.md", "tests/test_cli.py"],
         ["git", "commit", "-m", "chore(gitmeup): sync docs and tests"]] =
      [(2, ["git", "commit", "-m", "chore(gitmeup): sync docs and tests"],
        ["README.md", "tests/test_cli.py"])] ∧
    batch_top_level_areas ["README.md", "tests/test_cli.py"] =
      ["readme.md", "tests"] ∧
    (GitmeupErr.genericScope 2 "gitmeup" ≠
      GitmeupErr.scopeSpansMultipleAreas 2 ["readme.md", "tests"]) := by
  refine ⟨rfl, rfl, rfl, by decide⟩

/-- C3, amended: scanning the plan in order, the path arguments of all
`add`/`rm`/`mv` commands since the previous commit form the next
commit's batch and the accumulator then resets; a commit carrying a
scope that is not generic fails with `ScopeSpansMultipleAreas` when its
batch spans more than one distinct case-folded top-level segment (a
generic scope instead fails earlier with `GenericScope`); a commit
without a scope is never subject to the area check, whatever its
batch. -/
theorem C3_thm :
    (∀ (i : Nat) (acc : List String) (pre : List (List String))
      (c : List String) (post : List (List String)),
      (∀ x ∈ pre, is_commit_command x = false) →
      is_commit_command c = true →
      commitBatchesAux i acc (pre ++ c :: post) =
        (i + pre.length, c, acc ++ pre.flatMap pathArgsOf) ::
          commitBatchesAux (i + pre.length + 1) [] post) ∧
    (∀ (generic : List String) (i : Nat) (cmd : List String)
      (batch : List String) (h : String) (t : List String) (ty sc : String)
      (brk : Bool) (d : String),
      extract_commit_message_headers cmd = .ok (h :: t) →
      h ≠ "" →
      match_conventional_header h = some (ty, some sc, brk, d) →
      sc ≠ "" →
      caseFold (pyStrip sc) ∉ generic →
      1 < (batch_top_level_areas batch).length →
      check_commit generic i cmd batch =
        .error (.scopeSpansMultipleAreas i (batch_top_level_areas batch))) ∧
    (∀ (generic : List String) (i : Nat) (cmd : List String)
      (batch : List String) (h : String) (t : List String) (ty : String)
      (brk : Bool) (d : String),
      extract_commit_message_headers cmd = .ok (h :: t) →
      h ≠ "" →
      match_conventional_header h = some (ty, none, brk, d) →
      check_commit generic i cmd batch = .ok ()) := by
  refine ⟨?_, ?_, ?_⟩
  · intro i acc pre
    induction pre generalizing i acc with
    | nil =>
      intro c post hpre hc
      simp only [List.nil_append, commitBatchesAux, hc, if_true]
      simp [pathArgsOf_commit hc]
    | cons x pre' ih =>
      intro c post hpre hc
      have hx : is_commit_command x = false := hpre x (by simp)
      simp only [List.cons_append, commitBatchesAux, hx, Bool.false_eq_true,
        if_false, List.append_eq]
      rw [ih (i + 1) (acc ++ pathArgsOf x) c post
        (fun y hy => hpre y (by simp [hy])) hc]
      simp only [List.flatMap_cons, List.length_cons, List.append_assoc]
      have harith : i + 1 + pre'.length = i + (pre'.length + 1) := by omega
      rw [harith]
  · intro generic i cmd batch h t ty sc brk d hex hne hm hsc hgen harea
    unfold check_commit
    rw [hex]
    simp only [bind, Except.bind]
    rw [if_neg hne, hm]
    dsimp only []
    rw [if_neg hsc, if_neg hgen, if_pos harea]
  · intro generic i cmd batch h t ty brk d hex hne hm
    unfold check_commit
    rw [hex]
    simp only [bind, Except.bind]
    rw [if_neg hne, hm]

/-- Witness for C3: batch accumulation across an `add` into the
following commit; a non-generic scoped commit over a two-area batch is
`ScopeSpansMultipleAreas`; the same batch under an unscoped commit
passes. -/
theorem C3_witness :
    commitBatchesAux 1 []
        [["git", "add", "--", "README.md", "tests/test_cli.py"],
         ["git", "commit", "-m", "chore(tests): sync"]] =
      [(2, ["git", "commit", "-m", "chore(tests): sync"],
        ["README.md", "tests/test_cli.py"])] ∧
    check_commit ["proj", "gitmeup"] 2
        ["git", "commit", "-m", "chore(tests): sync"]
        ["README.md", "tests/test_cli.py"] =
      .error (.scopeSpansMultipleAreas 2 ["readme.md", "tests"]) ∧
    check_commit ["proj", "gitmeup"] 2
        ["git", "commit", "-m", "chore: sync"]
        ["README.md", "tests/test_cli.py"] = .ok () := by
  refine ⟨?_, ?_, ?_⟩
  · have h := C3_thm.1 1 [] [["git", "add", "--", "README.md", "tests/test_cli.py"]]
      ["git", "commit", "-m", "chore(tests): sync"] [] (by decide) (by decide)
    simpa using h
  · have h := C3_thm.2.1 ["proj", "gitmeup"] 2
      ["git", "commit", "-m", "chore(tests): sync"]
      ["README.md", "tests/test_cli.py"] "chore(tests): sync" [] "chore" "tests"
      false "sync" rfl (by decide) (by decide) (by decide) (by decide)
      (by decide)
    simpa using h
  · exact C3_thm.2.2 ["proj", "gitmeup"] 2 ["git", "commit", "-m", "chore: sync"]
      ["README.md", "tests/test_cli.py"] "chore: sync" [] "chore" false "sync"
      rfl (by decide) (by decide)

/-! ## Supporting lemmas: Python string primitives -/

lemma string_eta (s : String) : (⟨s.data⟩ : String) = s := by cases s; rfl

lemma takeWhile_append_of {p : Char → Bool} {xs : List Char} {y : Char}
    (ys : List Char) (hxs : ∀ x ∈ xs, p x = true) (hy : p y = false) :
    (xs ++ y :: ys).takeWhile p = xs := by
  induction xs with
  | nil =>
    rw [List.nil_append, List.takeWhile_cons, if_neg (by simp [hy])]
  | cons a as ih =>
    have ha := hxs a (by simp)
    simp only [List.cons_append, List.takeWhile_cons, ha, if_true]
    rw [ih (fun x hx => hxs x (by simp [hx]))]

lemma dropWhile_append_of {p : Char → Bool} {xs : List Char} {y : Char}
    (ys : List Char) (hxs : ∀ x ∈ xs, p x = true) (hy : p y = false) :
    (xs ++ y :: ys).dropWhile p = y :: ys := by
  induction xs with
  | nil =>
    rw [List.nil_append, List.dropWhile_cons, if_neg (by simp [hy])]
  | cons a as ih =>
    have ha := hxs a (by simp)
    simp only [List.cons_append, List.dropWhile_cons, ha, if_true]
    exact ih (fun x hx => hxs x (by simp [hx]))

lemma pyStripL_eq_self {cs : List Char} (h1 : cs.dropWhile pySpace = cs)
    (h2 : cs.reverse.dropWhile pySpace = cs.reverse) : pyStripL cs = cs := by
  unfold pyStripL
  rw [h1, h2, List.reverse_reverse]

/-- A list whose (defaulted) head fails the predicate is left alone by
`dropWhile`. -/
lemma dropWhile_eq_self_headD (p : Char → Bool) (l : List Char) (d : Char)
    (h : p (l.headD d) = false) : l.dropWhile p = l := by
  cases l with
  | nil => rfl
  | cons a t =>
    simp only [List.headD_cons] at h
    simp [List.dropWhile_cons, h]

lemma getLastD_eq_headD_reverse (l : List Char) :
    ∀ d : Char, l.getLastD d = l.reverse.headD d := by
  induction l with
  | nil => intro d; rfl
  | cons a t ih =>
    intro d
    rw [List.getLastD_cons, ih a, List.reverse_cons]
    cases ht : t.reverse with
    | nil => simp
    | cons b bs => simp

/-- `strip` leaves a string alone when its first and last characters
are not whitespace (with `'-'` covering the empty string). -/
lemma pyStrip_eq_self {s : String} (hhead : pySpace (s.data.headD '-') = false)
    (hlast : pySpace (s.data.getLastD '-') = false) : pyStrip s = s := by
  apply String.ext
  show pyStripL s.data = s.data
  apply pyStripL_eq_self
  · exact dropWhile_eq_self_headD pySpace s.data '-' hhead
  · refine dropWhile_eq_self_headD pySpace s.data.reverse '-' ?_
    rw [← getLastD_eq_headD_reverse]
    exact hlast

set_option maxHeartbeats 1000000 in
/-- A break-free character list is a single line. -/
lemma splitLinesL_break_free {cs : List Char}
    (h : ∀ c ∈ cs, isLineBreak c = false) :
    ∀ cur, cur ++ cs ≠ [] → splitLinesL cs cur = [cur ++ cs] := by
  induction cs with
  | nil =>
    intro cur hne
    rw [splitLinesL.eq_1, if_neg (by simpa using hne)]
    simp
  | cons c cs' ih =>
    intro cur hne
    have hc := h c (by simp)
    rw [splitLinesL.eq_3]
    · rw [if_neg (by simp [hc])]
      rw [ih (fun x hx => h x (by simp [hx])) (cur ++ [c]) (by simp)]
      simp
    · intro r2 hcr _
      rw [hcr] at hc
      simp [isLineBreak] at hc

/-- Splitting at an explicit `\n` after a break-free run. -/
lemma splitLinesL_newline {cs : List Char}
    (h : ∀ c ∈ cs, isLineBreak c = false) :
    ∀ cur ds, splitLinesL (cs ++ '\n' :: ds) cur =
      (cur ++ cs) :: splitLinesL ds [] := by
  induction cs with
  | nil =>
    intro cur ds
    rw [List.nil_append, splitLinesL.eq_3]
    · rw [if_pos (by simp [isLineBreak])]
      simp
    · intro r2 hcr _
      simp at hcr
  | cons c cs' ih =>
    intro cur ds
    have hc := h c (by simp)
    rw [List.cons_append, splitLinesL.eq_3]
    · rw [if_neg (by simp [hc])]
      rw [ih (fun x hx => h x (by simp [hx])) (cur ++ [c]) ds]
      simp
    · intro r2 hcr _
      rw [hcr] at hc
      simp [isLineBreak] at hc

/-- `splitlines` of `s ++ "\n" ++ t` for break-free `s` and nonempty
break-free `t`. -/
lemma splitLines_two {s t : String}
    (hs : ∀ c ∈ s.data, isLineBreak c = false)
    (ht : ∀ c ∈ t.data, isLineBreak c = false) (htne : t.data ≠ []) :
    splitLines (s ++ "\n" ++ t) = [s, t] := by
  unfold splitLines
  have hd : (s ++ "\n" ++ t).data = s.data ++ '\n' :: t.data := by
    rw [String.data_append, String.data_append, List.append_assoc]
    rfl
  rw [hd, splitLinesL_newline hs [] t.data]
  rw [splitLinesL_break_free ht [] (by simpa using htne)]
  simp [string_eta]

/-- `splitlines` of a nonempty break-free string is that one line. -/
lemma splitLines_single {s : String}
    (hs : ∀ c ∈ s.data, isLineBreak c = false) (hne : s.data ≠ []) :
    splitLines s = [s] := by
  unfold splitLines
  rw [splitLinesL_break_free hs [] (by simpa using hne)]
  simp [string_eta]

/-! ## C7 -/

/-- C7 is false on the code as stated: the code tests the scope's
*stripped* case-folded form.  The scope `" gitmeup "` (reachable, since
a scope is any run of non-`)` characters) is rejected as generic even
though its case-folded form `" gitmeup "` is not in the generic scope
set. -/
theorem C7_counterexample :
    validate_commit_messages "proj" none
        [["git", "commit", "-m", "feat( gitmeup ): x"]] =
      .error (.genericScope 1 " gitmeup ") ∧
    caseFold " gitmeup " ∉ project_generic_scopes "proj" none := by
  constructor
  · rfl
  · decide

/-- C7, amended: for every scoped commit, validation fails with
`GenericScope` exactly when the scope's stripped, case-folded form is
in the generic scope set; the set is the case-folded working-directory
name plus the literal `"gitmeup"`, plus — when the manifest exists, is
readable and declares a name — the stripped, case-folded declared
project name; an absent or unreadable manifest is never fatal and
contributes nothing. -/
theorem C7_thm :
    (∀ (generic : List String) (i : Nat) (cmd batch : List String)
      (h : String) (t : List String) (ty sc : String) (brk : Bool) (d : String),
      extract_commit_message_headers cmd = .ok (h :: t) →
      h ≠ "" →
      match_conventional_header h = some (ty, some sc, brk, d) →
      sc ≠ "" →
      (check_commit generic i cmd batch = .error (.genericScope i sc) ↔
        caseFold (pyStrip sc) ∈ generic)) ∧
    (∀ cwd : String,
      project_generic_scopes cwd none = [caseFold cwd, "gitmeup"]) ∧
    (∀ cwd nm : String, nm.data ≠ [] →
      (∀ ch ∈ nm.data, ch ≠ '"' ∧ ch ≠ '\'' ∧ isLineBreak ch = false) →
      project_generic_scopes cwd
          (some ("[project]" ++ "\n" ++ ("name = \"" ++ nm ++ "\""))) =
        [caseFold cwd, "gitmeup", caseFold (pyStrip nm)]) := by
  refine ⟨?_, ?_, ?_⟩
  · intro generic i cmd batch h t ty sc brk d hex hne hm hsc
    unfold check_commit
    rw [hex]
    simp only [bind, Except.bind]
    rw [if_neg hne, hm]
    dsimp only []
    rw [if_neg hsc]
    by_cases hg : caseFold (pyStrip sc) ∈ generic
    · rw [if_pos hg]
      simp [hg]
    · rw [if_neg hg]
      constructor
      · intro hcontra
        exfalso
        by_cases ha : (batch_top_level_areas batch).length > 1
        · rw [if_pos ha] at hcontra
          simp at hcontra
        · rw [if_neg ha] at hcontra
          simp at hcontra
      · intro hmem
        exact absurd hmem hg
  · intro cwd
    rfl
  · intro cwd nm hnm hch
    have hline2 : ("name = \"" ++ nm ++ "\"").data =
        'n' :: 'a' :: 'm' :: 'e' :: ' ' :: '=' :: ' ' :: '"' ::
          (nm.data ++ ['"']) := by
      simp only [String.data_append, List.append_assoc]
      rfl
    have hstrip2 : pyStrip ("name = \"" ++ nm ++ "\"") =
        "name = \"" ++ nm ++ "\"" := by
      apply pyStrip_eq_self
      · rw [hline2]; rfl
      · rw [hline2]
        have hshape : ('n' :: 'a' :: 'm' :: 'e' :: ' ' :: '=' :: ' ' :: '"' ::
            (nm.data ++ ['"'])) =
            ('n' :: 'a' :: 'm' :: 'e' :: ' ' :: '=' :: ' ' :: '"' :: nm.data)
              ++ ['"'] := by simp
        rw [hshape, getLastD_eq_headD_reverse]
        simp
        decide
    have hmemsplit : ∀ ch ∈ ("name = \"" ++ nm ++ "\"").data,
        isLineBreak ch = false := by
      intro ch hchm
      rw [hline2] at hchm
      have hshape : ('n' :: 'a' :: 'm' :: 'e' :: ' ' :: '=' :: ' ' :: '"' ::
          (nm.data ++ ['"'])) =
          (['n', 'a', 'm', 'e', ' ', '=', ' ', '"'] : List Char) ++
            (nm.data ++ ['"']) := rfl
      rw [hshape] at hchm
      rcases List.mem_append.mp hchm with h | h
      · fin_cases h <;> decide
      · rcases List.mem_append.mp h with h2 | h2
        · exact (hch ch h2).2.2
        · fin_cases h2; decide
    have hsplit : splitLines ("[project]" ++ "\n" ++ ("name = \"" ++ nm ++ "\"")) =
        ["[project]", "name = \"" ++ nm ++ "\""] := by
      apply splitLines_two
      · decide
      · exact hmemsplit
      · rw [hline2]; simp
    have hpf : "name".data.isPrefixOf ("name = \"" ++ nm ++ "\"").data = true := by
      rw [hline2]
      simp [List.isPrefixOf]
    have hnlv : nameLineValue ("name = \"" ++ nm ++ "\"") = some nm := by
      unfold nameLineValue
      rw [if_pos hpf, hline2]
      simp only [List.drop_succ_cons, List.drop_zero]
      have hdw : (' ' :: '=' :: ' ' :: '"' :: (nm.data ++ ['"'])).dropWhile
          pySpace = '=' :: ' ' :: '"' :: (nm.data ++ ['"']) := by
        rw [List.dropWhile_cons, if_pos (by decide), List.dropWhile_cons,
          if_neg (by decide)]
      rw [hdw]
      dsimp only []
      rw [if_pos (by decide)]
      have hdw2 : (' ' :: '"' :: (nm.data ++ ['"'])).dropWhile pySpace =
          '"' :: (nm.data ++ ['"']) := by
        rw [List.dropWhile_cons, if_pos (by decide), List.dropWhile_cons,
          if_neg (by decide)]
      rw [hdw2]
      dsimp only []
      rw [if_pos (by decide)]
      have htw : (nm.data ++ ['"']).takeWhile
          (fun c => c ≠ '"' && c ≠ '\'') = nm.data := by
        apply takeWhile_append_of
        · intro x hx
          have := hch x hx
          simp [this.1, this.2.1]
        · decide
      have hdw3 : (nm.data ++ ['"']).dropWhile
          (fun c => c ≠ '"' && c ≠ '\'') = ['"'] := by
        apply dropWhile_append_of
        · intro x hx
          have := hch x hx
          simp [this.1, this.2.1]
        · decide
      rw [htw, hdw3]
      dsimp only []
      rw [if_pos (by simp [hnm])]
    have hred : project_generic_scopes cwd
        (some ("[project]" ++ "\n" ++ ("name = \"" ++ nm ++ "\""))) =
        (match manifestName
            (splitLines ("[project]" ++ "\n" ++ ("name = \"" ++ nm ++ "\"")))
            false with
         | some nm2 => [caseFold cwd, "gitmeup"] ++ [caseFold (pyStrip nm2)]
         | none => [caseFold cwd, "gitmeup"]) := rfl
    rw [hred, hsplit]
    have step1 : ∀ rest', manifestName ("[project]" :: rest') false =
        manifestName rest' true := fun rest' => rfl
    rw [step1]
    have step2 : manifestName ["name = \"" ++ nm ++ "\""] true =
        nameLineValue ("name = \"" ++ nm ++ "\"") := by
      have hbr : startsWithStr "[" ("name = \"" ++ nm ++ "\"") = false := by
        unfold startsWithStr
        rw [hline2]
        simp [List.isPrefixOf]
      have hname : startsWithStr "name" ("name = \"" ++ nm ++ "\"") = true := by
        unfold startsWithStr
        exact hpf
      unfold manifestName
      rw [hstrip2]
      rw [if_neg (by simp [hbr]), if_neg (by simp [hname])]
    rw [step2, hnlv]
    rfl

/-- Witness for C7: a scope that strips and folds to `"gitmeup"` is
rejected via the iff; the manifest-free set is the two base entries;
a manifest declaring `My-Proj` adds `my-proj`. -/
theorem C7_witness :
    check_commit ["proj", "gitmeup"] 1
        ["git", "commit", "-m", "feat( GitMeUp ): x"] [] =
      .error (.genericScope 1 " GitMeUp ") ∧
    project_generic_scopes "proj" none = ["proj", "gitmeup"] ∧
    project_generic_scopes "proj"
        (some ("[project]" ++ "\n" ++ ("name = \"" ++ "My-Proj" ++ "\""))) =
      ["proj", "gitmeup", "my-proj"] := by
  refine ⟨?_, ?_, ?_⟩
  · exact (C7_thm.1 ["proj", "gitmeup"] 1
      ["git", "commit", "-m", "feat( GitMeUp ): x"] [] "feat( GitMeUp ): x" []
      "feat" " GitMeUp " false "x" rfl (by decide) (by decide) (by decide)).mpr
      (by decide)
  · have h := C7_thm.2.1 "proj"
    simpa using h
  · have h := C7_thm.2.2 "proj" "My-Proj" (by decide) (by decide)
    simpa using h

/-! ## C2 -/

/-- The validator loop reports the first failing commit in plan order. -/
lemma validateBatches_first_error (generic : List String)
    (e : GitmeupErr) :
    ∀ (bs₁ : List (Nat × List String × List String))
      (b : Nat × List String × List String)
      (bs₂ : List (Nat × List String × List String)),
    (∀ x ∈ bs₁, check_commit generic x.1 x.2.1 x.2.2 = .ok ()) →
    check_commit generic b.1 b.2.1 b.2.2 = .error e →
    validateBatches generic (bs₁ ++ b :: bs₂) = .error e := by
  intro bs₁
  induction bs₁ with
  | nil =>
    intro b bs₂ _ hb
    obtain ⟨i, cmd, batch⟩ := b
    simp only [List.nil_append, validateBatches]
    rw [hb]
    rfl
  | cons x bs ih =>
    intro b bs₂ hok hb
    obtain ⟨i, cmd, batch⟩ := x
    have hx := hok (i, cmd, batch) (by simp)
    simp only [List.cons_append, validateBatches]
    rw [hx]
    simp only [bind, Except.bind]
    exact ih b bs₂ (fun y hy => hok y (by simp [hy])) hb

/-- C2: `run_commands` runs all of path normalization, then all of
commit-policy validation, before anything executes (execution is
modelled by the returned plan: an `.error` result means the CLI exits
with no command executed).  Each phase aborts at its first failure in
plan order; in particular when every commit before some failing command
validates successfully, the later failure is the reported error and the
runner executes nothing. -/
theorem C2_thm :
    (∀ (paths : List String) (cwd : String) (manifest : Option String)
      (commands : List (List String)) (e : GitmeupErr),
      normalize_command_paths paths commands = .error e →
      run_commands paths cwd manifest commands = .error e) ∧
    (∀ (paths : List String) (cwd : String) (manifest : Option String)
      (commands commands' : List (List String)) (corr : List Correction)
      (e : GitmeupErr),
      normalize_command_paths paths commands = .ok (commands', corr) →
      validate_commit_messages cwd manifest commands' = .error e →
      run_commands paths cwd manifest commands = .error e) ∧
    (∀ (cwd : String) (manifest : Option String)
      (commands : List (List String))
      (bs₁ : List (Nat × List String × List String))
      (b : Nat × List String × List String)
      (bs₂ : List (Nat × List String × List String)) (e : GitmeupErr),
      iter_commit_batches commands = bs₁ ++ b :: bs₂ →
      (∀ x ∈ bs₁, check_commit (project_generic_scopes cwd manifest)
        x.1 x.2.1 x.2.2 = .ok ()) →
      check_commit (project_generic_scopes cwd manifest) b.1 b.2.1 b.2.2 =
        .error e →
      validate_commit_messages cwd manifest commands = .error e) := by
  refine ⟨?_, ?_, ?_⟩
  · intro paths cwd manifest commands e h
    unfold run_commands
    rw [h]
    rfl
  · intro paths cwd manifest commands commands' corr e hnorm hval
    unfold run_commands
    rw [hnorm]
    simp only [bind, Except.bind]
    rw [hval]
  · intro cwd manifest commands bs₁ b bs₂ e hbatches hok hb
    unfold validate_commit_messages
    rw [hbatches]
    exact validateBatches_first_error _ e bs₁ b bs₂ hok hb

/-- Witness for C2: a plan whose first commit validates and whose
second commit has a non-conforming header is rejected with the later
commit's error (command 4) and the runner returns no plan to execute. -/
theorem C2_witness :
    run_commands ["a.py", "b.py"] "proj" none
        [["git", "add", "--", "a.py"], ["git", "commit", "-m", "feat: a"],
         ["git", "add", "--", "b.py"],
         ["git", "commit", "-m", "bad header"]] =
      .error (.invalidCommitHeader 4 "bad header") ∧
    validate_commit_messages "proj" none
        [["git", "add", "--", "a.py"], ["git", "commit", "-m", "feat: a"],
         ["git", "add", "--", "b.py"],
         ["git", "commit", "-m", "bad header"]] =
      .error (.invalidCommitHeader 4 "bad header") := by
  constructor
  · exact C2_thm.2.1 ["a.py", "b.py"] "proj" none _ _ [] _ rfl
      (C2_thm.2.2 "proj" none _
        [(2, ["git", "commit", "-m", "feat: a"], ["a.py"])]
        (4, ["git", "commit", "-m", "bad header"], ["b.py"]) [] _ rfl
        (by intro x hx; simp at hx; subst hx; rfl) rfl)
  · exact C2_thm.2.2 "proj" none _
      [(2, ["git", "commit", "-m", "feat: a"], ["a.py"])]
      (4, ["git", "commit", "-m", "bad header"], ["b.py"]) [] _ rfl
      (by intro x hx; simp at hx; subst hx; rfl) rfl

/-! ## C6: the header grammar

`ConventionalGrammar` is the claim's grammar, written from the spec's
words (`<type>[(<scope>)][!]: <description>` with the closed type set,
a non-empty scope excluding `)`, an optional `!`, and a non-empty
description); the theorem compares it with the regex model
`match_conventional_header` translated from the source. -/

/-- No conventional type is a proper prefix of another. -/
lemma types_prefix_unique :
    ∀ t ∈ conventionalTypes, ∀ u ∈ conventionalTypes,
      t.data <+: u.data → t = u := by
  decide

/-- `find?` returns the unique element satisfying the predicate. -/
lemma find?_eq_some_of_unique {p : String → Bool} {x : String} :
    ∀ {l : List String}, x ∈ l → p x = true →
      (∀ y ∈ l, p y = true → y = x) → l.find? p = some x := by
  intro l
  induction l with
  | nil => intro hx; simp at hx
  | cons a t ih =>
    intro hx hpx huniq
    by_cases hpa : p a = true
    · rw [List.find?_cons_of_pos _ hpa]
      rw [huniq a (by simp) hpa]
    · rw [List.find?_cons_of_neg _ hpa]
      rcases List.mem_cons.mp hx with rfl | hxt
      · exact absurd hpx hpa
      · exact ih hxt hpx (fun y hy => huniq y (by simp [hy]))

/-- `takeWhile` keeps a list all of whose elements satisfy the
predicate. -/
lemma takeWhile_all {p : Char → Bool} :
    ∀ {l : List Char}, (∀ x ∈ l, p x = true) → l.takeWhile p = l := by
  intro l
  induction l with
  | nil => intro _; rfl
  | cons a t ih =>
    intro h
    rw [List.takeWhile_cons, if_pos (h a (by simp))]
    rw [ih (fun x hx => h x (by simp [hx]))]

/-! ## C6: lemmas about the sub-parsers -/

lemma dropWhile_head_false {p : Char → Bool} :
    ∀ {l : List Char} {y : Char} {ys : List Char},
      l.dropWhile p = y :: ys → p y = false := by
  intro l
  induction l with
  | nil => intro y ys h; simp at h
  | cons a t ih =>
    intro y ys h
    rw [List.dropWhile_cons] at h
    by_cases hpa : p a = true
    · rw [if_pos hpa] at h
      exact ih h
    · rw [if_neg hpa] at h
      injection h with h1 h2
      subst h1
      simpa using hpa

/-- What a successful `parseScope` means. -/
lemma parseScope_some {cs : List Char} {sc : Option String} {cs₁ : List Char}
    (h : parseScope cs = some (sc, cs₁)) :
    (sc = none ∧ cs₁ = cs) ∨
    (∃ scl : List Char, sc = some ⟨scl⟩ ∧ scl ≠ [] ∧ (∀ c ∈ scl, c ≠ ')') ∧
      cs = '(' :: (scl ++ ')' :: cs₁)) := by
  match cs with
  | [] =>
    left
    rw [show parseScope [] = some (none, ([] : List Char)) from rfl] at h
    injection h with h'
    injection h' with ha hb
    exact ⟨ha.symm, hb.symm⟩
  | c :: cs' =>
    by_cases hc : c = '('
    · subst hc
      right
      rw [parseScope] at h
      rw [if_pos rfl] at h
      rcases hdw : cs'.dropWhile (fun ch => ch ≠ ')') with _ | ⟨q, cs''⟩
      · rw [hdw] at h; simp at h
      · rw [hdw] at h
        dsimp only [] at h
        by_cases hsc0 : cs'.takeWhile (fun ch => ch ≠ ')') = []
        · rw [if_pos hsc0] at h; simp at h
        · rw [if_neg hsc0] at h
          have hq : q = ')' := by
            have := dropWhile_head_false hdw
            simpa using this
          have hdec : cs' = cs'.takeWhile (fun ch => ch ≠ ')') ++ ')' :: cs'' := by
            conv_lhs => rw [← List.takeWhile_append_dropWhile
              (fun ch => ch ≠ ')') cs']
            rw [hdw, hq]
          injection h with h'
          injection h' with hsc hcs₁
          refine ⟨cs'.takeWhile (fun ch => ch ≠ ')'), ?_, hsc0, ?_, ?_⟩
          · exact hsc.symm
          · intro ch hch
            have := List.mem_takeWhile_imp hch
            simpa using this
          · rw [hcs₁] at hdec
            rw [← hdec]
    · left
      rw [parseScope, if_neg hc] at h
      injection h with h'
      injection h' with h1 h2
      exact ⟨h1.symm, h2.symm⟩

/-- What `parseBang` does. -/
lemma parseBang_cases (cs₁ : List Char) :
    (parseBang cs₁ = (false, cs₁)) ∨
    (∃ r, cs₁ = '!' :: r ∧ parseBang cs₁ = (true, r)) := by
  match cs₁ with
  | [] => left; rfl
  | c :: r =>
    by_cases hc : c = '!'
    · subst hc
      right
      exact ⟨r, rfl, by rw [parseBang, if_pos rfl]⟩
    · left
      rw [parseBang, if_neg hc]

/-- What a successful `parseColonDesc` means (on newline-free input the
description is the whole remainder). -/
lemma parseColonDesc_some {cs : List Char} {desc : String}
    (hnl : ∀ c ∈ cs, c ≠ '\n') (h : parseColonDesc cs = some desc) :
    cs = ':' :: ' ' :: desc.data ∧ desc.data ≠ [] := by
  match cs with
  | [] => simp [parseColonDesc] at h
  | [c1] => simp [parseColonDesc] at h
  | c1 :: c2 :: d =>
    rw [parseColonDesc] at h
    by_cases hcc : c1 = ':' ∧ c2 = ' '
    · obtain ⟨rfl, rfl⟩ := hcc
      rw [if_pos (by simp)] at h
      dsimp only [] at h
      have htw : d.takeWhile (fun ch => ch ≠ '\n') = d := by
        apply takeWhile_all
        intro x hx
        simpa using hnl x (by simp [hx])
      rw [htw] at h
      by_cases hd : d = []
      · rw [if_pos hd] at h; simp at h
      · rw [if_neg hd] at h
        injection h with h'
        subst h'
        exact ⟨rfl, hd⟩
    · rw [if_neg (by simpa using fun h1 h2 => hcc ⟨h1, h2⟩)] at h
      simp at h

/-- `parseScope` converses, for the backward direction. -/
lemma parseScope_no_scope {cs : List Char}
    (h : cs = [] ∨ ∃ c cs', cs = c :: cs' ∧ c ≠ '(') :
    parseScope cs = some (none, cs) := by
  rcases h with rfl | ⟨c, cs', rfl, hc⟩
  · rfl
  · rw [parseScope, if_neg hc]

lemma parseScope_with_scope {scl X : List Char} (hne : scl ≠ [])
    (hmem : ∀ c ∈ scl, c ≠ ')') :
    parseScope ('(' :: (scl ++ ')' :: X)) = some (some ⟨scl⟩, X) := by
  rw [parseScope, if_pos rfl]
  have htw : (scl ++ ')' :: X).takeWhile (fun ch => ch ≠ ')') = scl :=
    takeWhile_append_of X (fun x hx => by simpa using hmem x hx) (by simp)
  have hdw : (scl ++ ')' :: X).dropWhile (fun ch => ch ≠ ')') = ')' :: X :=
    dropWhile_append_of X (fun x hx => by simpa using hmem x hx) (by simp)
  rw [hdw]
  dsimp only []
  rw [htw, if_neg hne]

lemma parseBang_no_bang {cs : List Char}
    (h : cs = [] ∨ ∃ c cs', cs = c :: cs' ∧ c ≠ '!') :
    parseBang cs = (false, cs) := by
  rcases h with rfl | ⟨c, cs', rfl, hc⟩
  · rfl
  · rw [parseBang, if_neg hc]

lemma parseColonDesc_ok {d : List Char} (hnl : ∀ c ∈ d, c ≠ '\n')
    (hd : d ≠ []) : parseColonDesc (':' :: ' ' :: d) = some ⟨d⟩ := by
  rw [parseColonDesc, if_pos (by simp)]
  dsimp only []
  have htw : d.takeWhile (fun ch => ch ≠ '\n') = d := by
    apply takeWhile_all
    intro x hx
    simpa using hnl x hx
  rw [htw, if_neg hd]

/-- A successful regex match implies the grammar decomposition. -/
lemma match_imp_grammar {s : String} (hnl : '\n' ∉ s.data)
    {parts : String × Option String × Bool × String}
    (hm : match_conventional_header s = some parts) :
    ConventionalGrammar s.data := by
  unfold match_conventional_header at hm
  rcases hfind : conventionalTypes.find?
      (fun t => t.data.isPrefixOf s.data) with _ | t
  · rw [hfind] at hm; simp at hm
  · rw [hfind] at hm
    dsimp only [] at hm
    have ht : t ∈ conventionalTypes := List.mem_of_find?_eq_some hfind
    have hp : t.data.isPrefixOf s.data = true := by
      have h0 := List.find?_some hfind
      simpa using h0
    have hpre : t.data <+: s.data := List.isPrefixOf_iff_prefix.mp hp
    obtain ⟨rest, hrest⟩ := hpre
    have hdrop : s.data.drop t.length = rest := by
      rw [← hrest]
      exact List.drop_left t.data rest
    rw [hdrop] at hm
    rcases hmat : matchAfterType rest with _ | parts'
    · rw [hmat] at hm; simp at hm
    · have hnlrest : ∀ ch ∈ rest, ch ≠ '\n' := by
        intro ch hch heq
        subst heq
        exact hnl (by rw [← hrest]; simp [hch])
      unfold matchAfterType at hmat
      rcases hps : parseScope rest with _ | ⟨sc₂, cs₁⟩
      · rw [hps] at hmat; simp at hmat
      · rw [hps] at hmat
        dsimp only [] at hmat
        rcases hpc : parseColonDesc (parseBang cs₁).2 with _ | desc
        · rw [hpc] at hmat; simp at hmat
        · have hcs₁sub : ∀ ch ∈ cs₁, ch ≠ '\n' := by
            rcases parseScope_some hps with ⟨-, hcs⟩ | ⟨scl, -, -, -, hcs⟩
            · intro ch hch; exact hnlrest ch (hcs ▸ hch)
            · intro ch hch
              exact hnlrest ch (by rw [hcs]; simp [hch])
          rcases parseBang_cases cs₁ with hbg | ⟨r, hr, hbg⟩
          · rw [hbg] at hpc
            obtain ⟨hcd, hdne⟩ := parseColonDesc_some hcs₁sub hpc
            rcases parseScope_some hps with ⟨-, hcs⟩ | ⟨scl, -, hscl, hsclmem, hcs⟩
            · refine ⟨t, [], [], desc.data, ht, ?_, Or.inl rfl, Or.inl rfl, hdne⟩
              rw [← hrest, ← hcs, hcd]
              simp
            · refine ⟨t, '(' :: (scl ++ [')']), [], desc.data, ht, ?_,
                Or.inr ⟨scl, hscl, hsclmem, rfl⟩, Or.inl rfl, hdne⟩
              rw [← hrest, hcs, hcd]
              simp
          · rw [hbg] at hpc
            have hrsub : ∀ ch ∈ r, ch ≠ '\n' := by
              intro ch hch
              exact hcs₁sub ch (by rw [hr]; simp [hch])
            obtain ⟨hcd, hdne⟩ := parseColonDesc_some hrsub hpc
            rcases parseScope_some hps with ⟨-, hcs⟩ | ⟨scl, -, hscl, hsclmem, hcs⟩
            · refine ⟨t, [], ['!'], desc.data, ht, ?_, Or.inl rfl, Or.inr rfl,
                hdne⟩
              rw [← hrest, ← hcs, hr, hcd]
              simp
            · refine ⟨t, '(' :: (scl ++ [')']), ['!'], desc.data, ht, ?_,
                Or.inr ⟨scl, hscl, hsclmem, rfl⟩, Or.inr rfl, hdne⟩
              rw [← hrest, hcs, hr, hcd]
              simp

/-- A grammar decomposition implies a successful regex match. -/
lemma grammar_imp_match {s : String} (hnl : '\n' ∉ s.data)
    (hg : ConventionalGrammar s.data) :
    (match_conventional_header s).isSome := by
  obtain ⟨t, sp, bp, d, ht, heq, hsp, hbp, hd⟩ := hg
  have htpre : t.data <+: s.data := ⟨_, heq.symm⟩
  have hpt : t.data.isPrefixOf s.data = true :=
    List.isPrefixOf_iff_prefix.mpr htpre
  have hfind : conventionalTypes.find?
      (fun u => u.data.isPrefixOf s.data) = some t := by
    apply find?_eq_some_of_unique ht hpt
    intro y hy hpy
    have hypre : y.data <+: s.data := List.isPrefixOf_iff_prefix.mp hpy
    rcases List.prefix_or_prefix_of_prefix hypre htpre with h | h
    · exact types_prefix_unique y hy t ht h
    · exact (types_prefix_unique t ht y hy h).symm
  unfold match_conventional_header
  rw [hfind]
  dsimp only []
  have hdrop : s.data.drop t.length = sp ++ (bp ++ (':' :: ' ' :: d)) := by
    rw [heq]
    exact List.drop_left _ _
  rw [hdrop]
  have hnld : ∀ ch ∈ d, ch ≠ '\n' := by
    intro ch hch heq2
    subst heq2
    exact hnl (by rw [heq]; simp [hch])
  have hbang : parseBang (bp ++ (':' :: ' ' :: d)) =
      (decide (bp ≠ []), ':' :: ' ' :: d) := by
    rcases hbp with rfl | rfl
    · rw [List.nil_append,
        show (decide (([] : List Char) ≠ [])) = false by decide]
      apply parseBang_no_bang
      right
      exact ⟨':', ' ' :: d, rfl, by decide⟩
    · rw [show (decide ((['!'] : List Char) ≠ [])) = true by decide,
        List.cons_append, List.nil_append]
      rw [parseBang, if_pos rfl]
  rcases hsp with rfl | ⟨scl, hscl, hmem, rfl⟩
  · have hps : parseScope ([] ++ (bp ++ (':' :: ' ' :: d))) =
        some (none, bp ++ (':' :: ' ' :: d)) := by
      rw [List.nil_append]
      apply parseScope_no_scope
      rcases hbp with rfl | rfl
      · right
        exact ⟨':', ' ' :: d, rfl, by decide⟩
      · right
        exact ⟨'!', ':' :: ' ' :: d, rfl, by decide⟩
    unfold matchAfterType
    rw [hps]
    dsimp only []
    rw [hbang]
    dsimp only []
    rw [parseColonDesc_ok hnld hd]
    rfl
  · have hshape : ('(' :: (scl ++ [')'])) ++ (bp ++ (':' :: ' ' :: d)) =
        '(' :: (scl ++ ')' :: (bp ++ (':' :: ' ' :: d))) := by
      simp
    have hps : parseScope (('(' :: (scl ++ [')'])) ++ (bp ++ (':' :: ' ' :: d))) =
        some (some ⟨scl⟩, bp ++ (':' :: ' ' :: d)) := by
      rw [hshape]
      exact parseScope_with_scope hscl (fun c hc => hmem c hc)
    unfold matchAfterType
    rw [hps]
    dsimp only []
    rw [hbang]
    dsimp only []
    rw [parseColonDesc_ok hnld hd]
    rfl

/-- C6 is false on the code at one edge: the empty header is
non-conforming (the grammar requires a type and a non-empty
description), yet the validator rejects it with `EmptyCommitHeader`,
not `InvalidCommitHeader` citing the header text. -/
theorem C6_counterexample :
    validate_commit_messages "proj" none [["git", "commit", "-m", ""]] =
      .error (.emptyCommitHeader 1) ∧
    ¬ ConventionalGrammar ("" : String).data ∧
    (Except.error (GitmeupErr.emptyCommitHeader 1) ≠
      (Except.error (GitmeupErr.invalidCommitHeader 1 "") :
        Except GitmeupErr Unit)) := by
  refine ⟨rfl, ?_, by decide⟩
  rintro ⟨t, sp, bp, d, ht, heq, -, -, -⟩
  rw [show ("" : String).data = [] from rfl] at heq
  have h2 := heq.symm
  simp at h2

/-- C6, amended: a commit header matches the code's conventional-commit
regex if and only if it satisfies the grammar
`<type>[(<scope>)][!]: <description>` with the closed type set {feat,
fix, chore, docs, style, refactor, perf, test, ci, revert}, a non-empty
scope excluding `)`, an optional `!`, and a non-empty description;
every *non-empty* non-conforming header is rejected with
`InvalidCommitHeader` citing the offending header text, while the empty
header is rejected with `EmptyCommitHeader`. -/
theorem C6_thm :
    (∀ s : String, '\n' ∉ s.data →
      ((match_conventional_header s).isSome ↔ ConventionalGrammar s.data)) ∧
    (∀ (generic : List String) (i : Nat) (cmd batch : List String)
      (h : String) (t : List String),
      extract_commit_message_headers cmd = .ok (h :: t) → h ≠ "" →
      match_conventional_header h = none →
      check_commit generic i cmd batch = .error (.invalidCommitHeader i h)) ∧
    (∀ (generic : List String) (i : Nat) (cmd batch : List String)
      (t : List String),
      extract_commit_message_headers cmd = .ok ("" :: t) →
      check_commit generic i cmd batch = .error (.emptyCommitHeader i)) := by
  refine ⟨?_, ?_, ?_⟩
  · intro s hnl
    constructor
    · intro hsome
      obtain ⟨parts, hm⟩ := Option.isSome_iff_exists.mp hsome
      exact match_imp_grammar hnl hm
    · exact grammar_imp_match hnl
  · intro generic i cmd batch h t hex hne hm
    unfold check_commit
    rw [hex]
    simp only [bind, Except.bind]
    rw [if_neg hne, hm]
  · intro generic i cmd batch t hex
    unfold check_commit
    rw [hex]
    simp only [bind, Except.bind]
    simp

/-- Witness for C6: a conforming header is accepted via the grammar; a
non-empty header with no type is rejected citing its text; the empty
header gets its own error. -/
theorem C6_witness :
    (match_conventional_header "feat(ui)!: add popup").isSome = true ∧
    check_commit [] 1 ["git", "commit", "-m", "update parser behavior"] [] =
      .error (.invalidCommitHeader 1 "update parser behavior") ∧
    check_commit [] 1 ["git", "commit", "-m", ""] [] =
      .error (.emptyCommitHeader 1) := by
  refine ⟨?_, ?_, ?_⟩
  · have hg : ConventionalGrammar ("feat(ui)!: add popup".data) :=
      ⟨"feat", ['(', 'u', 'i', ')'], ['!'], "add popup".data, by decide,
        by decide, Or.inr ⟨['u', 'i'], by decide, by decide, rfl⟩,
        Or.inr rfl, by decide⟩
    have h := (C6_thm.1 "feat(ui)!: add popup" (by decide)).mpr hg
    simpa using h
  · exact C6_thm.2.1 [] 1 ["git", "commit", "-m", "update parser behavior"]
      [] "update parser behavior" [] rfl (by decide) (by decide)
  · exact C6_thm.2.2 [] 1 ["git", "commit", "-m", ""] [] [] rfl

/-! ## C4: supporting lemmas for the Path Normalizer -/

lemma mem_insertSorted {x y : String} :
    ∀ {l : List String}, x ∈ insertSorted y l ↔ x = y ∨ x ∈ l := by
  intro l
  induction l with
  | nil => simp [insertSorted]
  | cons a t ih =>
    rw [insertSorted]
    by_cases h : strLt y a = true
    · rw [if_pos h]
      simp
    · rw [if_neg h]
      simp only [List.mem_cons, ih]
      tauto

lemma mem_sortStrings {x : String} :
    ∀ {l : List String}, x ∈ sortStrings l ↔ x ∈ l := by
  intro l
  induction l with
  | nil => simp [sortStrings]
  | cons a t ih =>
    show x ∈ insertSorted a (sortStrings t) ↔ _
    rw [mem_insertSorted]
    simp [ih]

lemma mem_dedupFrom {x : String} :
    ∀ {l seen : List String}, x ∈ dedupFrom seen l → x ∈ l := by
  intro l
  induction l with
  | nil => intro seen h; simp [dedupFrom] at h
  | cons a t ih =>
    intro seen h
    rw [dedupFrom] at h
    by_cases ha : a ∈ seen
    · rw [if_pos ha] at h
      exact List.mem_cons_of_mem _ (ih h)
    · rw [if_neg ha] at h
      rcases List.mem_cons.mp h with rfl | h2
      · simp
      · exact List.mem_cons_of_mem _ (ih h2)

/-- Every candidate in an index entry case-folds to the entry's key. -/
lemma lookup_fold {paths : List String} {k c : String}
    (h : c ∈ pathIndexLookup paths k) : caseFold c = k := by
  unfold pathIndexLookup at h
  rw [mem_sortStrings] at h
  have h2 := (List.mem_filter.mp h).2
  simpa using h2

/-- A successful resolution either keeps the path or returns the unique
fold-equal candidate. -/
lemma resolve_ok_cases {paths : List String} {p q : String}
    (h : resolve_path_casing p paths = .ok q) :
    q = p ∨ (caseFold q = caseFold p ∧
      pathIndexLookup paths (caseFold p) = [q]) := by
  unfold resolve_path_casing at h
  by_cases h1 : pathIndexLookup paths (caseFold p) = []
  · rw [if_pos h1] at h
    injection h with h'
    exact Or.inl h'.symm
  · rw [if_neg h1] at h
    by_cases h2 : p ∈ pathIndexLookup paths (caseFold p)
    · rw [if_pos h2] at h
      injection h with h'
      exact Or.inl h'.symm
    · rw [if_neg h2] at h
      rcases hlk : pathIndexLookup paths (caseFold p) with _ | ⟨c, _ | ⟨c2, t⟩⟩
      · exact absurd hlk h1
      · rw [hlk] at h
        injection h with h'
        right
        constructor
        · rw [← h']
          apply lookup_fold
          rw [hlk]
          simp
        · rw [h']
      · rw [hlk] at h
        cases h

/-- Resolution is idempotent: a resolved path resolves to itself. -/
lemma resolve_idem {paths : List String} {p q : String}
    (h : resolve_path_casing p paths = .ok q) :
    resolve_path_casing q paths = .ok q := by
  rcases resolve_ok_cases h with rfl | ⟨hfold, hlk⟩
  · exact h
  · unfold resolve_path_casing
    rw [hfold, hlk]
    rw [if_neg (by simp), if_pos (by simp)]

/-- Lower-casing maps only `'-'` to `'-'`. -/
lemma toLower_eq_dash {c : Char} (h : c.toLower = '-') : c = '-' := by
  by_cases hu : 65 ≤ c.toNat ∧ c.toNat ≤ 90
  · exfalso
    have h' : Char.ofNat (c.toNat + 32) = '-' := by
      rw [Char.toLower] at h
      rwa [if_pos hu] at h
    obtain ⟨h1, h2⟩ := hu
    set n := c.toNat with hn
    interval_cases n <;> exact absurd h' (by decide)
  · rw [Char.toLower] at h
    rwa [if_neg hu] at h

/-- Fold-equal strings agree on whether they start with `'-'`. -/
lemma caseFold_dashFirst {a b : String} (h : caseFold a = caseFold b) :
    dashFirst a = dashFirst b := by
  have hdata : a.data.map Char.toLower = b.data.map Char.toLower :=
    congrArg String.data h
  unfold dashFirst
  rcases hda : a.data with _ | ⟨ca, ta⟩ <;> rcases hdb : b.data with _ | ⟨cb, tb⟩
  · rfl
  · rw [hda, hdb] at hdata; simp at hdata
  · rw [hda, hdb] at hdata; simp at hdata
  · rw [hda, hdb] at hdata
    injection hdata with hlow _
    by_cases hca : ca = '-'
    · subst hca
      have : Char.toLower cb = '-' := by
        rw [← hlow]; decide
      have hcb : cb = '-' := toLower_eq_dash this
      simp [hcb]
    · have hcb : cb ≠ '-' := by
        intro hcb
        subst hcb
        exact hca (toLower_eq_dash (by rw [hlow]; decide))
      simp [hca, hcb]

/-- A string equals `""` exactly when its data is empty. -/
lemma string_empty_iff {a : String} : a = "" ↔ a.data = [] := by
  constructor
  · intro h
    rw [h]
  · intro h
    apply String.ext
    rw [h]

/-- Fold-equal strings agree on emptiness. -/
lemma caseFold_empty {a b : String} (h : caseFold a = caseFold b) :
    (a = "") ↔ (b = "") := by
  have hdata : a.data.map Char.toLower = b.data.map Char.toLower :=
    congrArg String.data h
  rw [string_empty_iff, string_empty_iff]
  constructor
  · intro ha
    rw [ha] at hdata
    simpa using hdata.symm
  · intro hb
    rw [hb] at hdata
    simpa using hdata

/-- `firstIdx` of a member: bounded, hits the element, and is minimal. -/
lemma firstIdx_spec {x : String} :
    ∀ {l : List String}, x ∈ l →
      firstIdx x l < l.length ∧ l.getD (firstIdx x l) "" = x ∧
      (∀ k, k < firstIdx x l → l.getD k "" ≠ x) := by
  intro l
  induction l with
  | nil => intro h; simp at h
  | cons a t ih =>
    intro h
    rw [firstIdx]
    by_cases ha : a = x
    · rw [if_pos ha]
      exact ⟨by simp, by simpa using ha, fun k hk => absurd hk (Nat.not_lt_zero k)⟩
    · rw [if_neg ha]
      have hxt : x ∈ t := by
        rcases List.mem_cons.mp h with rfl | h2
        · exact absurd rfl ha
        · exact h2
      obtain ⟨h1, h2, h3⟩ := ih hxt
      refine ⟨by simpa using Nat.succ_lt_succ h1, by simpa using h2, ?_⟩
      intro k hk
      match k with
      | 0 => simpa using ha
      | Nat.succ m =>
        have hm : m < firstIdx x t := by omega
        simpa using h3 m hm

/-- `firstIdx` is determined by hit-and-minimality. -/
lemma firstIdx_eq_of {x : String} :
    ∀ {l : List String} {n : Nat}, n < l.length → l.getD n "" = x →
      (∀ k, k < n → l.getD k "" ≠ x) → firstIdx x l = n := by
  intro l
  induction l with
  | nil => intro n h; simp at h
  | cons a t ih =>
    intro n hn hx hmin
    rw [firstIdx]
    match n with
    | 0 =>
      rw [if_pos (by simpa using hx)]
    | Nat.succ m =>
      have ha : a ≠ x := by simpa using hmin 0 (Nat.succ_pos m)
      rw [if_neg ha]
      have := ih (n := m) (by simpa using hn) (by simpa using hx)
        (fun k hk => by simpa using hmin (k + 1) (by omega))
      omega

lemma getD_set_self {l : List String} {i : Nat} {a : String}
    (h : i < l.length) : (l.set i a).getD i "" = a := by
  rw [List.getD_eq_getElem?_getD, List.getElem?_set_self h]
  rfl

lemma getD_set_ne {l : List String} {i j : Nat} {a : String}
    (h : i ≠ j) : (l.set i a).getD j "" = l.getD j "" := by
  rw [List.getD_eq_getElem?_getD, List.getElem?_set_ne h,
    ← List.getD_eq_getElem?_getD]

lemma getD_mem {l : List String} {k : Nat} (h : k < l.length) :
    l.getD k "" ∈ l := by
  rw [List.getD_eq_getElem?_getD, List.getElem?_eq_getElem h]
  exact List.getElem_mem h

/-- Path-argument positions lie in `[2, cmd.length)`. -/
lemma positions_facts {cmd : List String} {j : Nat}
    (h : j ∈ path_indices_for_git_path_command cmd) :
    2 ≤ j ∧ j < cmd.length := by
  unfold path_indices_for_git_path_command at h
  split at h
  next hg => simp at h
  next hg =>
    simp only [Bool.or_eq_true, decide_eq_true_eq] at hg
    push_neg at hg
    obtain ⟨⟨hlen, hgit⟩, hsub⟩ := hg
    split at h
    next hsep =>
      rw [List.mem_range'_1] at h
      obtain ⟨hfi1, hfi2, -⟩ := firstIdx_spec hsep
      have h2 : 2 ≤ firstIdx "--" cmd := by
        rcases hfi0 : firstIdx "--" cmd with _ | _ | n
        · rw [hfi0] at hfi2
          exact absurd (hgit.symm.trans hfi2) (by decide)
        · rw [hfi0] at hfi2
          rw [hfi2] at hsub
          simp at hsub
        · omega
      omega
    next hsep =>
      have hj := List.mem_filter.mp h
      have hr := List.mem_range'_1.mp hj.1
      omega

/-- Path-argument positions are pairwise distinct. -/
lemma positions_nodup (cmd : List String) :
    (path_indices_for_git_path_command cmd).Nodup := by
  unfold path_indices_for_git_path_command
  split
  · exact List.nodup_nil
  · split
    · exact List.nodup_range' _ _
    · exact List.Nodup.filter _ (List.nodup_range' _ _)

/-- One normalizer step, as a case split on the resolution. -/
lemma normStep_eval (paths : List String) (cur : List String)
    (cs : List (String × String)) (j : Nat) :
    normStep paths (cur, cs) j =
      match resolve_path_casing (cur.getD j "") paths with
      | .error e => .error e
      | .ok q =>
        if q ≠ cur.getD j "" then
          .ok (cur.set j q, cs ++ [(cur.getD j "", q)])
        else .ok (cur, cs) := by
  unfold normStep
  dsimp only []
  rcases hres : resolve_path_casing (cur.getD j "") paths with e | q
  · rfl
  · simp only [bind, Except.bind]
    rfl

/-- The per-command fold of the normalizer, characterized: lengths are
preserved, untouched positions keep their values, each position's value
resolves to its final value, and the recorded pairs are exactly one per
changed argument, in position order. -/
lemma foldNorm (paths : List String) :
    ∀ (ps : List Nat) (cur : List String) (cs : List (String × String))
      (cur' : List String) (cs' : List (String × String)),
      ps.Nodup → (∀ j ∈ ps, j < cur.length) →
      ps.foldlM (normStep paths) (cur, cs) = .ok (cur', cs') →
      cur'.length = cur.length ∧
      (∀ k, k ∉ ps → cur'.getD k "" = cur.getD k "") ∧
      (∀ j ∈ ps, resolve_path_casing (cur.getD j "") paths =
        .ok (cur'.getD j "")) ∧
      cs' = cs ++ ps.filterMap (fun j =>
        match resolve_path_casing (cur.getD j "") paths with
        | .ok q => if q ≠ cur.getD j "" then some (cur.getD j "", q) else none
        | .error _ => none) := by
  intro ps
  induction ps with
  | nil =>
    intro cur cs cur' cs' _ _ hfold
    rw [List.foldlM_nil] at hfold
    injection hfold with h'
    injection h' with h1 h2
    subst h1
    subst h2
    exact ⟨rfl, fun k _ => rfl, fun j hj => absurd hj (List.not_mem_nil j),
      by simp⟩
  | cons j rest ih =>
    intro cur cs cur' cs' hnd hbound hfold
    have hj : j < cur.length := hbound j (by simp)
    have hjrest : j ∉ rest := (List.nodup_cons.mp hnd).1
    have hndrest : rest.Nodup := (List.nodup_cons.mp hnd).2
    rw [List.foldlM_cons, normStep_eval] at hfold
    rcases hres : resolve_path_casing (cur.getD j "") paths with e | q
    · rw [hres] at hfold
      simp [bind, Except.bind] at hfold
    · rw [hres] at hfold
      dsimp only [] at hfold
      by_cases hchg : q ≠ cur.getD j ""
      · rw [if_pos hchg] at hfold
        simp only [bind, Except.bind] at hfold
        obtain ⟨hlen, hout, hin, hcs⟩ := ih (cur.set j q)
          (cs ++ [(cur.getD j "", q)]) cur' cs' hndrest
          (fun j' hj' => by
            rw [List.length_set]
            exact hbound j' (by simp [hj']))
          hfold
        have hset_j : (cur.set j q).getD j "" = q := getD_set_self hj
        refine ⟨by rw [hlen, List.length_set], ?_, ?_, ?_⟩
        · intro k hk
          have hkj : j ≠ k := fun hh => hk (hh ▸ by simp)
          have hkrest : k ∉ rest := fun hh => hk (by simp [hh])
          rw [hout k hkrest, getD_set_ne hkj]
        · intro j' hj'
          rcases List.mem_cons.mp hj' with rfl | hj'rest
          · rw [hout j' hjrest, hset_j]
            exact hres
          · have hne : j ≠ j' := by
              intro hh
              rw [hh] at hjrest
              exact hjrest hj'rest
            have := hin j' hj'rest
            rwa [getD_set_ne hne] at this
        · rw [hcs]
          have hfm : rest.filterMap (fun j' =>
              match resolve_path_casing ((cur.set j q).getD j' "") paths with
              | .ok r => if r ≠ (cur.set j q).getD j' "" then
                  some ((cur.set j q).getD j' "", r) else none
              | .error _ => none) =
              rest.filterMap (fun j' =>
              match resolve_path_casing (cur.getD j' "") paths with
              | .ok r => if r ≠ cur.getD j' "" then
                  some (cur.getD j' "", r) else none
              | .error _ => none) := by
            apply List.filterMap_congr
            intro x hx
            have hne : j ≠ x := by
              intro hh
              rw [hh] at hjrest
              exact hjrest hx
            rw [getD_set_ne hne]
          rw [hfm, List.filterMap_cons, hres]
          dsimp only []
          rw [if_pos hchg]
          simp
      · rw [if_neg hchg] at hfold
        simp only [bind, Except.bind] at hfold
        push_neg at hchg
        obtain ⟨hlen, hout, hin, hcs⟩ := ih cur cs cur' cs' hndrest
          (fun j' hj' => hbound j' (by simp [hj'])) hfold
        refine ⟨hlen, ?_, ?_, ?_⟩
        · intro k hk
          exact hout k (fun hh => hk (by simp [hh]))
        · intro j' hj'
          rcases List.mem_cons.mp hj' with rfl | hj'rest
          · rw [hout j' hjrest]
            rw [hchg] at hres
            exact hres
          · exact hin j' hj'rest
        · rw [hcs, List.filterMap_cons, hres]
          dsimp only []
          rw [if_neg (by simp [hchg])]

/-- Only dashes lower-case to a double dash. -/
lemma map_toLower_dashdash {l : List Char}
    (h : l.map Char.toLower = ['-', '-']) : l = ['-', '-'] := by
  rcases l with _ | ⟨c1, _ | ⟨c2, _ | ⟨c3, t⟩⟩⟩
  · simp at h
  · simp at h
  · have h' : Char.toLower c1 = '-' ∧ Char.toLower c2 = '-' := by
      simpa using h
    rw [toLower_eq_dash h'.1, toLower_eq_dash h'.2]
  · simp at h

/-- Fold-equal strings agree on being the `"--"` separator. -/
lemma fold_dashdash_iff {a b : String} (h : caseFold a = caseFold b) :
    a = "--" ↔ b = "--" := by
  have hdata : a.data.map Char.toLower = b.data.map Char.toLower :=
    congrArg String.data h
  have hlit : ("--" : String).data = ['-', '-'] := by decide
  have hmapl : (['-', '-'] : List Char).map Char.toLower = ['-', '-'] := by
    decide
  constructor
  · intro ha
    rw [ha, hlit, hmapl] at hdata
    apply String.ext
    rw [hlit]
    exact map_toLower_dashdash hdata.symm
  · intro hb
    rw [hb, hlit, hmapl] at hdata
    apply String.ext
    rw [hlit]
    exact map_toLower_dashdash hdata

/-- A list member sits at some index (reported through `getD`). -/
lemma mem_exists_getD {α : Type} {l : List α} {x : α} (d : α) (h : x ∈ l) :
    ∃ k, k < l.length ∧ l.getD k d = x := by
  obtain ⟨i, hi, he⟩ := List.mem_iff_getElem.mp h
  refine ⟨i, hi, ?_⟩
  rw [List.getD_eq_getElem?_getD, List.getElem?_eq_getElem hi]
  exact he

/-- In-range `getD` values are members. -/
lemma getD_mem_gen {α : Type} {l : List α} {k : Nat} (d : α)
    (h : k < l.length) : l.getD k d ∈ l := by
  rw [List.getD_eq_getElem?_getD, List.getElem?_eq_getElem h]
  exact List.getElem_mem h

/-- Path-argument positions are determined by the length, the first two
tokens, and the case-folds of the arguments. -/
lemma positions_congr {cmd cmd' : List String}
    (hlen : cmd'.length = cmd.length)
    (h0 : cmd'.getD 0 "" = cmd.getD 0 "")
    (h1 : cmd'.getD 1 "" = cmd.getD 1 "")
    (hfold : ∀ k, caseFold (cmd'.getD k "") = caseFold (cmd.getD k "")) :
    path_indices_for_git_path_command cmd' =
      path_indices_for_git_path_command cmd := by
  have hdd : ∀ k, (cmd'.getD k "" = "--") ↔ (cmd.getD k "" = "--") :=
    fun k => fold_dashdash_iff (hfold k)
  have hmem : ("--" ∈ cmd') ↔ ("--" ∈ cmd) := by
    constructor
    · intro h
      obtain ⟨k, hk, he⟩ := mem_exists_getD "" h
      have he' : cmd.getD k "" = "--" := (hdd k).mp he
      exact he' ▸ getD_mem_gen "" (by omega)
    · intro h
      obtain ⟨k, hk, he⟩ := mem_exists_getD "" h
      have he' : cmd'.getD k "" = "--" := (hdd k).mpr he
      exact he' ▸ getD_mem_gen "" (by omega)
  have hfi : "--" ∈ cmd → firstIdx "--" cmd' = firstIdx "--" cmd := by
    intro hm
    obtain ⟨hflt, hfhit, hfmin⟩ := firstIdx_spec hm
    exact firstIdx_eq_of (by omega) ((hdd _).mpr hfhit)
      (fun k hk hc => hfmin k hk ((hdd k).mp hc))
  simp only [path_indices_for_git_path_command]
  rw [hlen, h0, h1]
  apply if_congr Iff.rfl rfl
  by_cases hm : "--" ∈ cmd
  · rw [if_pos (hmem.mpr hm), if_pos hm, hfi hm]
  · rw [if_neg (fun hc => hm (hmem.mp hc)), if_neg hm]
    apply List.filter_congr
    intro j hj
    have he := caseFold_empty (hfold j)
    have hd := caseFold_dashFirst (hfold j)
    rw [hd]
    congr 1
    exact decide_eq_decide.mpr (not_congr he)

/-- `normalizeOne`, characterized through `foldNorm`. -/
lemma normalizeOne_spec {paths cmd cmd' : List String}
    {cs : List (String × String)}
    (h : normalizeOne paths cmd = .ok (cmd', cs)) :
    cmd'.length = cmd.length ∧
    (∀ k, k ∉ path_indices_for_git_path_command cmd →
      cmd'.getD k "" = cmd.getD k "") ∧
    (∀ j ∈ path_indices_for_git_path_command cmd,
      resolve_path_casing (cmd.getD j "") paths = .ok (cmd'.getD j "")) ∧
    cs = (path_indices_for_git_path_command cmd).filterMap (fun j =>
      match resolve_path_casing (cmd.getD j "") paths with
      | .ok q => if q ≠ cmd.getD j "" then some (cmd.getD j "", q) else none
      | .error _ => none) := by
  unfold normalizeOne at h
  obtain ⟨hl, ho, hi, hc⟩ := foldNorm paths
    (path_indices_for_git_path_command cmd) cmd [] cmd' cs
    (positions_nodup cmd) (fun j hj => (positions_facts hj).2) h
  exact ⟨hl, ho, hi, by simpa using hc⟩

/-- A successful `normalizeOne` leaves the path-argument positions
unchanged. -/
lemma positions_stable {paths cmd cmd' : List String}
    {cs : List (String × String)}
    (h : normalizeOne paths cmd = .ok (cmd', cs)) :
    path_indices_for_git_path_command cmd' =
      path_indices_for_git_path_command cmd := by
  obtain ⟨hl, ho, hi, -⟩ := normalizeOne_spec h
  have hnot0 : (0 : Nat) ∉ path_indices_for_git_path_command cmd :=
    fun hc => by have := (positions_facts hc).1; omega
  have hnot1 : (1 : Nat) ∉ path_indices_for_git_path_command cmd :=
    fun hc => by have := (positions_facts hc).1; omega
  apply positions_congr hl (ho 0 hnot0) (ho 1 hnot1)
  intro k
  by_cases hk : k ∈ path_indices_for_git_path_command cmd
  · rcases resolve_ok_cases (hi k hk) with he | ⟨hf, -⟩
    · rw [he]
    · exact hf
  · rw [ho k hk]

/-- A fold over self-resolving positions changes nothing. -/
lemma foldNorm_self (paths : List String) :
    ∀ (ps : List Nat) (cur : List String) (cs : List (String × String)),
      (∀ j ∈ ps, resolve_path_casing (cur.getD j "") paths =
        .ok (cur.getD j "")) →
      ps.foldlM (normStep paths) (cur, cs) = .ok (cur, cs) := by
  intro ps
  induction ps with
  | nil => intro cur cs _; rw [List.foldlM_nil]; rfl
  | cons j rest ih =>
    intro cur cs h
    rw [List.foldlM_cons, normStep_eval, h j (by simp)]
    dsimp only []
    rw [if_neg (by simp)]
    simp only [bind, Except.bind]
    exact ih cur cs (fun j' hj' => h j' (by simp [hj']))

/-- Re-normalizing an already-normalized command changes nothing and
records no pairs. -/
lemma normalizeOne_idem {paths cmd cmd' : List String}
    {cs : List (String × String)}
    (h : normalizeOne paths cmd = .ok (cmd', cs)) :
    normalizeOne paths cmd' = .ok (cmd', []) := by
  obtain ⟨-, -, hi, -⟩ := normalizeOne_spec h
  unfold normalizeOne
  rw [positions_stable h]
  apply foldNorm_self
  intro j hj
  exact resolve_idem (hi j hj)

/-- Plans without path positions expect no corrections. -/
lemma expectedCorrections_empty {paths : List String} :
    ∀ (cmds : List (List String)) (i : Nat),
      (∀ cmd ∈ cmds, path_indices_for_git_path_command cmd = []) →
      expectedCorrections paths i cmds = [] := by
  intro cmds
  induction cmds with
  | nil => intro i _; rfl
  | cons cmd rest ih =>
    intro i h
    simp only [expectedCorrections]
    rw [h cmd (by simp), List.filterMap_nil, List.nil_append]
    exact ih (i + 1) (fun c hc => h c (by simp [hc]))

/-- A successful `normalizeLoop` records exactly the expected
corrections, preserves the plan length, and normalizes each command via
`normalizeOne`. -/
lemma normalizeLoop_ok {paths : List String} :
    ∀ (cmds : List (List String)) (i : Nat) (cmds' : List (List String))
      (corr : List Correction),
      normalizeLoop paths i cmds = .ok (cmds', corr) →
      corr = expectedCorrections paths i cmds ∧
      cmds'.length = cmds.length ∧
      (∀ k, k < cmds.length → ∃ cs, normalizeOne paths (cmds.getD k []) =
        .ok (cmds'.getD k [], cs)) := by
  intro cmds
  induction cmds with
  | nil =>
    intro i cmds' corr h
    simp only [normalizeLoop] at h
    injection h with h'
    injection h' with h1 h2
    subst h1
    subst h2
    exact ⟨rfl, rfl, fun k hk => absurd hk (by simp)⟩
  | cons cmd rest ih =>
    intro i cmds' corr h
    simp only [normalizeLoop] at h
    rcases hone : normalizeOne paths cmd with e | ⟨c', cs⟩
    · rw [hone] at h
      simp [bind, Except.bind] at h
    · rw [hone] at h
      simp only [bind, Except.bind] at h
      rcases hloop : normalizeLoop paths (i + 1) rest with e | ⟨rest', corr₂⟩
      · rw [hloop] at h
        simp at h
      · rw [hloop] at h
        dsimp only [] at h
        injection h with h'
        injection h' with h1 h2
        subst h1
        subst h2
        obtain ⟨hc₂, hl₂, hk₂⟩ := ih (i + 1) rest' corr₂ hloop
        refine ⟨?_, by simp [hl₂], ?_⟩
        · rw [hc₂]
          simp only [expectedCorrections]
          congr 1
          obtain ⟨-, -, -, hcs⟩ := normalizeOne_spec hone
          rw [hcs, List.map_filterMap]
          apply List.filterMap_congr
          intro j hj
          rcases hres : resolve_path_casing (cmd.getD j "") paths with e | q
          · rfl
          · dsimp only []
            by_cases hch : q ≠ cmd.getD j ""
            · rw [if_pos hch, if_pos hch]
              rfl
            · rw [if_neg hch, if_neg hch]
              rfl
        · intro k hk
          rcases k with _ | m
          · exact ⟨cs, hone⟩
          · have hm : m < rest.length := by
              simp only [List.length_cons] at hk
              omega
            obtain ⟨cs₂, h₂⟩ := hk₂ m hm
            exact ⟨cs₂, by simpa using h₂⟩

/-- `normalizeLoop` on a plan of already-normalized commands returns it
unchanged with no corrections. -/
lemma normalizeLoop_self {paths : List String} :
    ∀ (cmds : List (List String)) (i : Nat),
      (∀ cmd ∈ cmds, normalizeOne paths cmd = .ok (cmd, [])) →
      normalizeLoop paths i cmds = .ok (cmds, []) := by
  intro cmds
  induction cmds with
  | nil => intro i _; rfl
  | cons cmd rest ih =>
    intro i h
    simp only [normalizeLoop]
    rw [h cmd (by simp)]
    simp only [bind, Except.bind]
    rw [ih (i + 1) (fun c hc => h c (by simp [hc]))]
    simp

/-! ## C4 -/

/-- C4: for every `add`/`rm`/`mv` path argument whose case-folded form
maps in the Path Index to exactly one canonical path differing from the
given spelling, normalization rewrites the argument to that canonical
form; the recorded corrections are exactly one `(position, original,
canonical)` triple per changed argument, in plan order; and re-running
normalization on the already-corrected plan against the same Path Index
returns every command unchanged and records zero corrections. -/
theorem C4_thm (paths : List String) (cmds cmds' : List (List String))
    (corr : List Correction)
    (h : normalize_command_paths paths cmds = .ok (cmds', corr)) :
    corr = expectedCorrections paths 1 cmds ∧
    (∀ k, k < cmds.length →
      ∀ j ∈ path_indices_for_git_path_command (cmds.getD k []), ∀ c,
        pathIndexLookup paths (caseFold ((cmds.getD k []).getD j "")) = [c] →
        c ≠ (cmds.getD k []).getD j "" →
        (cmds'.getD k []).getD j "" = c) ∧
    normalize_command_paths paths cmds' = .ok (cmds', []) := by
  unfold normalize_command_paths at h ⊢
  by_cases hall : cmds.all
      (fun cmd => path_indices_for_git_path_command cmd = []) = true
  · rw [if_pos hall] at h
    injection h with h'
    injection h' with h1 h2
    subst h1
    subst h2
    have hall' : ∀ cmd ∈ cmds, path_indices_for_git_path_command cmd = [] := by
      simpa using hall
    refine ⟨(expectedCorrections_empty cmds 1 hall').symm, ?_, ?_⟩
    · intro k hk j hj c _ _
      rw [hall' (cmds.getD k []) (getD_mem_gen [] hk)] at hj
      exact absurd hj (List.not_mem_nil j)
    · rw [if_pos hall]
  · rw [if_neg hall] at h
    obtain ⟨hcorr, hlen, hks⟩ := normalizeLoop_ok cmds 1 cmds' corr h
    have hself : ∀ cmd ∈ cmds', normalizeOne paths cmd = .ok (cmd, []) := by
      intro cmd hc
      obtain ⟨k, hk, he⟩ := mem_exists_getD [] hc
      obtain ⟨cs, hone⟩ := hks k (by omega)
      have hidem := normalizeOne_idem hone
      rwa [he] at hidem
    refine ⟨hcorr, ?_, ?_⟩
    · intro k hk' j hj c hlk hne
      obtain ⟨cs, hone⟩ := hks k hk'
      obtain ⟨-, -, hi, -⟩ := normalizeOne_spec hone
      have hr := hi j hj
      have hres : resolve_path_casing ((cmds.getD k []).getD j "") paths =
          .ok c := by
        unfold resolve_path_casing
        dsimp only []
        rw [hlk]
        have hnm : (cmds.getD k []).getD j "" ∉ ([c] : List String) := by
          simp only [List.mem_singleton]
          exact fun he => hne he.symm
        rw [if_neg (by simp), if_neg hnm]
      rw [hres] at hr
      injection hr with h'
      exact h'.symm
    · by_cases hall' : cmds'.all
          (fun cmd => path_indices_for_git_path_command cmd = []) = true
      · rw [if_pos hall']
      · rw [if_neg hall']
        exact normalizeLoop_self cmds' 1 hself

/-- C4 witness: the tracked path `components/Foo.tsx` corrects a
mis-cased `git add` argument, and the corrected plan re-normalizes to
itself with no corrections. -/
theorem C4_witness :
    normalize_command_paths ["components/Foo.tsx"]
        [["git", "add", "--", "Components/Foo.tsx"]] =
      .ok ([["git", "add", "--", "components/Foo.tsx"]],
        [(1, "Components/Foo.tsx", "components/Foo.tsx")]) ∧
    normalize_command_paths ["components/Foo.tsx"]
        [["git", "add", "--", "components/Foo.tsx"]] =
      .ok ([["git", "add", "--", "components/Foo.tsx"]], []) := by
  have h : normalize_command_paths ["components/Foo.tsx"]
      [["git", "add", "--", "Components/Foo.tsx"]] =
      .ok ([["git", "add", "--", "components/Foo.tsx"]],
        [(1, "Components/Foo.tsx", "components/Foo.tsx")]) := by decide
  exact ⟨h, (C4_thm ["components/Foo.tsx"]
    [["git", "add", "--", "Components/Foo.tsx"]]
    [["git", "add", "--", "components/Foo.tsx"]]
    [(1, "Components/Foo.tsx", "components/Foo.tsx")] h).2.2⟩

/-! ## C8 and C9: the multi-line lexer -/

/-- `getLastD` of a nonempty list ignores the default. -/
lemma getLastD_irrel {ys : List Char} (h : ys ≠ []) (d d' : Char) :
    ys.getLastD d = ys.getLastD d' := by
  rw [getLastD_eq_headD_reverse, getLastD_eq_headD_reverse]
  rcases hr : ys.reverse with _ | ⟨c, t⟩
  · exact absurd (List.reverse_eq_nil_iff.mp hr) h
  · rfl

/-- `getLastD` of an append with nonempty right part. -/
lemma getLastD_append {xs ys : List Char} {d : Char} (h : ys ≠ []) :
    (xs ++ ys).getLastD d = ys.getLastD d := by
  rw [getLastD_eq_headD_reverse, getLastD_eq_headD_reverse,
    List.reverse_append]
  rcases hr : ys.reverse with _ | ⟨c, t⟩
  · exact absurd (List.reverse_eq_nil_iff.mp hr) h
  · rfl

/-- The characters of the `git commit -m "` prefix. -/
lemma data_git_prefix : "git commit -m \"".data =
    ['g', 'i', 't', ' ', 'c', 'o', 'm', 'm', 'i', 't', ' ', '-', 'm', ' ',
      '"'] := by
  decide

/-- The scanner consumes `git commit -m "` into three tokens and an
open double quote. -/
lemma shlexRun_git_commit_prefix (tail : List Char) :
    shlexRun
      (['g', 'i', 't', ' ', 'c', 'o', 'm', 'm', 'i', 't', ' ', '-', 'm',
        ' ', '"'] ++ tail) .space [] false [] =
    shlexRun tail .doubleQ [] true
      [['g', 'i', 't'], ['c', 'o', 'm', 'm', 'i', 't'], ['-', 'm']] := by
  rfl

/-- Inside double quotes, ordinary characters are appended verbatim. -/
lemma shlexRun_doubleQ_consume :
    ∀ (l tok : List Char) (acc : List (List Char)) (rest : List Char),
      (∀ c ∈ l, c ≠ '"' ∧ c ≠ '\\') →
      shlexRun (l ++ rest) .doubleQ tok true acc =
        shlexRun rest .doubleQ (tok ++ l) true acc := by
  intro l
  induction l with
  | nil => intro tok acc rest _; rw [List.nil_append, List.append_nil]
  | cons c t ih =>
    intro tok acc rest h
    have hc := h c (by simp)
    rw [List.cons_append, shlexRun.eq_def]
    dsimp only []
    rw [if_neg hc.1, if_neg hc.2]
    rw [ih (tok ++ [c]) acc rest (fun c' hc' => h c' (by simp [hc']))]
    rw [List.append_assoc]
    rfl

/-- End of input inside double quotes: `No closing quotation`. -/
lemma shlexRun_doubleQ_eof (l tok : List Char) (acc : List (List Char))
    (h : ∀ c ∈ l, c ≠ '"' ∧ c ≠ '\\') :
    shlexRun l .doubleQ tok true acc = .error .noClosingQuotation := by
  have hrun := shlexRun_doubleQ_consume l tok acc [] h
  rw [List.append_nil] at hrun
  rw [hrun]
  rfl

/-- A `git commit -m "` line whose quote never closes fails with
`No closing quotation`. -/
lemma shlexSplit_open (a : String)
    (ha : ∀ c ∈ a.data, c ≠ '"' ∧ c ≠ '\\') :
    shlexSplit ("git commit -m \"" ++ a) = .error .noClosingQuotation := by
  unfold shlexSplit
  rw [String.data_append, data_git_prefix, shlexRun_git_commit_prefix,
    shlexRun_doubleQ_eof a.data [] _ ha]
  rfl

/-- The rejoined two-line command tokenizes to the commit vector with
the embedded newline preserved. -/
lemma shlexSplit_closed (a b : String)
    (ha : ∀ c ∈ a.data, c ≠ '"' ∧ c ≠ '\\')
    (hb : ∀ c ∈ b.data, c ≠ '"' ∧ c ≠ '\\') :
    shlexSplit (("git commit -m \"" ++ a) ++ "\n" ++ (b ++ "\"")) =
      .ok ["git", "commit", "-m", a ++ "\n" ++ b] := by
  unfold shlexSplit
  have hd : (("git commit -m \"" ++ a) ++ "\n" ++ (b ++ "\"")).data =
      "git commit -m \"".data ++
        ((a.data ++ '\n' :: b.data) ++ ['"']) := by
    simp only [String.data_append, List.append_assoc]
    rfl
  rw [hd, data_git_prefix, shlexRun_git_commit_prefix]
  have hmid : ∀ c ∈ a.data ++ '\n' :: b.data, c ≠ '"' ∧ c ≠ '\\' := by
    intro c hc
    rcases List.mem_append.mp hc with h1 | h1
    · exact ha c h1
    · rcases List.mem_cons.mp h1 with rfl | h2
      · exact ⟨by decide, by decide⟩
      · exact hb c h2
  rw [shlexRun_doubleQ_consume (a.data ++ '\n' :: b.data) [] _ ['"'] hmid]
  rw [shlexRun.eq_def]
  dsimp only []
  rw [if_pos rfl]
  rw [shlexRun.eq_def]
  dsimp only []
  rw [if_pos (by simp)]
  have hmsg : (⟨[] ++ (a.data ++ '\n' :: b.data)⟩ : String) =
      a ++ "\n" ++ b := by
    apply String.ext
    simp only [String.data_append, List.nil_append, List.append_assoc]
    rfl
  simp only [Except.map, List.map_append, List.map_cons, List.map_nil]
  rw [hmsg]
  rfl

/-- Stripping leaves the opening commit line alone when the message
part does not end in whitespace. -/
lemma strip_l1 (a : String)
    (hlast : pySpace (a.data.getLastD '"') = false) :
    pyStrip ("git commit -m \"" ++ a) = "git commit -m \"" ++ a := by
  apply pyStrip_eq_self
  · rw [String.data_append, data_git_prefix]
    show pySpace 'g' = false
    decide
  · rw [String.data_append]
    rcases hd : a.data with _ | ⟨c, t⟩
    · rw [List.append_nil, data_git_prefix]
      decide
    · rw [getLastD_append (by simp), getLastD_irrel (by simp) '-' '"']
      rw [hd] at hlast
      exact hlast

/-- The opening commit line is neither blank nor a comment nor a
prompt line, so the lexer tokenizes it; the open quote buffers it. -/
lemma parseLine_l1 (a : String)
    (ha : ∀ c ∈ a.data, c ≠ '"' ∧ c ≠ '\\')
    (hlast : pySpace (a.data.getLastD '"') = false) (ln : Nat) :
    parseLine ⟨[], [], 0⟩ ln ("git commit -m \"" ++ a) =
      .ok ⟨[], ["git commit -m \"" ++ a], ln⟩ := by
  have hcons : ("git commit -m \"" ++ a).data =
      'g' :: ("it commit -m \"".data ++ a.data) := by
    rw [String.data_append, data_git_prefix]
    rfl
  have hne : ¬("git commit -m \"" ++ a = "") := by
    intro h
    rw [string_empty_iff, hcons] at h
    simp at h
  have hhash : startsWithStr "#" ("git commit -m \"" ++ a) = false := by
    unfold startsWithStr
    rw [hcons]
    rfl
  have hdol : startsWithStr "$ " ("git commit -m \"" ++ a) = false := by
    unfold startsWithStr
    rw [hcons]
    rfl
  unfold parseLine
  dsimp only []
  rw [if_pos rfl, strip_l1 a hlast]
  rw [if_neg (by simp [hne, hhash])]
  rw [if_neg (by simp [hdol])]
  have hjoin : joinWith "\n" ["git commit -m \"" ++ a] =
      "git commit -m \"" ++ a := rfl
  rw [hjoin, shlexSplit_open a ha]

/-- With the opening line buffered, the closing line rejoins and emits
the commit vector. -/
lemma parseLine_l2 (a b : String)
    (ha : ∀ c ∈ a.data, c ≠ '"' ∧ c ≠ '\\')
    (hb : ∀ c ∈ b.data, c ≠ '"' ∧ c ≠ '\\') (ln ln' : Nat) :
    parseLine ⟨[], ["git commit -m \"" ++ a], ln⟩ ln' (b ++ "\"") =
      .ok ⟨[["git", "commit", "-m", a ++ "\n" ++ b]], [], 0⟩ := by
  unfold parseLine
  dsimp only []
  rw [if_neg (by simp)]
  have hjoin : joinWith "\n" (["git commit -m \"" ++ a] ++ [b ++ "\""]) =
      ("git commit -m \"" ++ a) ++ "\n" ++ (b ++ "\"") := rfl
  rw [hjoin, shlexSplit_closed a b ha hb]
  dsimp only []
  rw [if_pos (by simp)]
  rfl

/-- The prefix characters contain no line break. -/
lemma git_prefix_break_free :
    ∀ c ∈ ['g', 'i', 't', ' ', 'c', 'o', 'm', 'm', 'i', 't', ' ', '-', 'm',
      ' ', '"'], isLineBreak c = false := by
  decide

/-- C8: a `git commit` whose double-quoted message spans two physical
lines is buffered at the unterminated quote, rejoined with the next
line by a newline, and retried, yielding exactly one argument vector
with the embedded newline preserved in the message. -/
theorem C8_thm (a b : String)
    (ha : ∀ c ∈ a.data, c ≠ '"' ∧ c ≠ '\\' ∧ isLineBreak c = false)
    (hb : ∀ c ∈ b.data, c ≠ '"' ∧ c ≠ '\\' ∧ isLineBreak c = false)
    (hlast : pySpace (a.data.getLastD '"') = false) :
    parse_commands (("git commit -m \"" ++ a) ++ "\n" ++ (b ++ "\"")) =
      .ok [["git", "commit", "-m", a ++ "\n" ++ b]] := by
  have ha' : ∀ c ∈ a.data, c ≠ '"' ∧ c ≠ '\\' :=
    fun c hc => ⟨(ha c hc).1, (ha c hc).2.1⟩
  have hb' : ∀ c ∈ b.data, c ≠ '"' ∧ c ≠ '\\' :=
    fun c hc => ⟨(hb c hc).1, (hb c hc).2.1⟩
  have hs1 : ∀ c ∈ ("git commit -m \"" ++ a).data, isLineBreak c = false := by
    intro c hc
    rw [String.data_append, data_git_prefix] at hc
    rcases List.mem_append.mp hc with h1 | h1
    · exact git_prefix_break_free c h1
    · exact (ha c h1).2.2
  have hs2 : ∀ c ∈ (b ++ "\"").data, isLineBreak c = false := by
    intro c hc
    rw [String.data_append] at hc
    rcases List.mem_append.mp hc with h1 | h1
    · exact (hb c h1).2.2
    · have : c = '"' := by simpa using h1
      rw [this]
      decide
  have htne : (b ++ "\"").data ≠ [] := by
    rw [String.data_append]
    simp
  have hsplit := splitLines_two hs1 hs2 htne
  unfold parse_commands
  rw [hsplit]
  simp only [parseLinesLoop]
  rw [parseLine_l1 a ha' hlast 1]
  simp only [bind, Except.bind]
  rw [parseLine_l2 a b ha' hb' 1 2]
  simp only [bind, Except.bind]
  rw [if_neg (by simp)]
  rw [if_neg (by simp)]

/-- C8 witness: the commit message `feat: start\ncontinue` lexes to one
vector with the newline preserved. -/
theorem C8_witness :
    (∀ c ∈ ("feat: start" : String).data,
      c ≠ '"' ∧ c ≠ '\\' ∧ isLineBreak c = false) ∧
    parse_commands (("git commit -m \"" ++ "feat: start") ++ "\n" ++
        ("continue" ++ "\"")) =
      .ok [["git", "commit", "-m", "feat: start" ++ "\n" ++ "continue"]] :=
  ⟨by decide, C8_thm "feat: start" "continue" (by decide) (by decide)
    (by decide)⟩

/-- C9: input ending with the quote still open fails with
`UnterminatedQuote`, reporting the 1-based starting line of the
buffered command and the buffered text. -/
theorem C9_thm (a : String)
    (ha : ∀ c ∈ a.data, c ≠ '"' ∧ c ≠ '\\' ∧ isLineBreak c = false)
    (hlast : pySpace (a.data.getLastD '"') = false) :
    parse_commands ("git commit -m \"" ++ a) =
      .error (.unterminatedQuote 1 ("git commit -m \"" ++ a)) := by
  have ha' : ∀ c ∈ a.data, c ≠ '"' ∧ c ≠ '\\' :=
    fun c hc => ⟨(ha c hc).1, (ha c hc).2.1⟩
  have hs1 : ∀ c ∈ ("git commit -m \"" ++ a).data, isLineBreak c = false := by
    intro c hc
    rw [String.data_append, data_git_prefix] at hc
    rcases List.mem_append.mp hc with h1 | h1
    · exact git_prefix_break_free c h1
    · exact (ha c h1).2.2
  have hne : ("git commit -m \"" ++ a).data ≠ [] := by
    rw [String.data_append, data_git_prefix]
    simp
  have hne' : ¬("git commit -m \"" ++ a = "") :=
    fun h => hne (string_empty_iff.mp h)
  have hsplit := splitLines_single hs1 hne
  have hsnip : bufferedSnippet ["git commit -m \"" ++ a] =
      "git commit -m \"" ++ a := by
    unfold bufferedSnippet
    simp only [List.map_cons, List.map_nil, strip_l1 a hlast,
      List.filter_cons, List.filter_nil]
    rw [if_pos (by simp [hne'])]
    rfl
  unfold parse_commands
  rw [hsplit]
  simp only [parseLinesLoop]
  rw [parseLine_l1 a ha' hlast 1]
  simp only [bind, Except.bind]
  rw [if_pos (by simp), hsnip]

/-- C9 witness: `git commit -m "broken` reports an unterminated quote
starting at line 1. -/
theorem C9_witness :
    (∀ c ∈ ("broken" : String).data,
      c ≠ '"' ∧ c ≠ '\\' ∧ isLineBreak c = false) ∧
    parse_commands ("git commit -m \"" ++ "broken") =
      .error (.unterminatedQuote 1 ("git commit -m \"" ++ "broken")) :=
  ⟨by decide, C9_thm "broken" (by decide) (by decide)⟩

end Gitmeup
